import Mathlib

/-!
Verification development for the callback-pipeline compiler of this
repository (`callbacks.go`).  The Go code is shallowly embedded below:
each definition mirrors one Go function, with machine state (the mutable
`cs []*callback` slice and the `sorted []string` working list) passed
explicitly.  Pointers into the slice are represented by indices; every
field read of a callback goes through the current state, so the in-place
field mutations performed by `sortCallback` (`cs[idx].after = c.name`,
`after.before = c.name`) are reproduced exactly, including their
visibility to later reads of the same callback.

Handlers (`func(*DB)`) are opaque to the compiler and are modeled as
`Nat` identifiers.  The `match` predicate of a callback is evaluated
against the owning `*DB` at compile time; the DB is abstracted to a
`Nat` so that a predicate can change its verdict between recompiles.

`sort.SliceStable` is modeled by Go's own `stable` implementation from
the standard sort package, transcribed loop for loop: insertion sort on
blocks of 20 elements followed by rounds of `symMerge` (with `rotate`
and its binary searches) on doubling block sizes.  For lists of at most
20 elements this runs exactly one insertion-sort pass; the distinction
matters because the comparator built in `sortCallbacks` is not a strict
weak order when both `before="*"` and `after="*"` steps are present, so
on longer inputs the merge rounds may arrange such steps differently
from a plain insertion sort.  Loops are driven by explicit fuel
parameters that dominate their Go iteration counts, so the model never
exhausts fuel on the executions Go performs.  The unbounded Go
recursion in `sortCallback` is modeled with an explicit fuel parameter;
running out of fuel yields a distinguished error (in Go the
corresponding executions never return: they exhaust the stack).
-/

namespace Gorm

/-- One registry entry, mirroring `type callback struct` in
`callbacks.go` (fields `name, before, after, remove, replace, match,
handler`; the `processor` back-pointer is implicit).  `handler` is an
opaque action id; `match_` is the optional compile-time condition,
evaluated against the abstract DB state. -/
structure Callback where
  name : String
  before : String
  after : String
  remove : Bool
  replace : Bool
  match_ : Option (Nat → Bool)
  handler : Nat
deriving Inhabited

/-- Model of `getRIndex(strs, str)` from `callbacks.go`: index of the last
occurrence, `none` standing for Go's `-1`. -/
def getRIndex : List String → String → Option Nat
  | [], _ => none
  | x :: xs, s =>
    match getRIndex xs s with
    | some i => some (i + 1)
    | none => if x = s then some 0 else none

/-- Dereference the pointer `cs[i]`. -/
def getCb (cs : List Callback) (i : Nat) : Callback :=
  (cs.get? i).getD default

/-- The in-place mutation `cs[idx].after = a`. -/
def setAfter (cs : List Callback) (i : Nat) (a : String) : List Callback :=
  cs.set i { getCb cs i with after := a }

/-- The in-place mutation `cs[idx].before = b` (from `after.before = c.name`). -/
def setBefore (cs : List Callback) (i : Nat) (b : String) : List Callback :=
  cs.set i { getCb cs i with before := b }

/-- The comparator passed to `sort.SliceStable` in `sortCallbacks`
(lines 283–291): `i` sorts before `j` when `cs[j].before == "*" &&
cs[i].before != "*"`, or `cs[j].after == "*" && cs[i].after != "*"`. -/
def goLess (ci cj : Callback) : Bool :=
  decide ((cj.before = "*" ∧ ci.before ≠ "*") ∨ (cj.after = "*" ∧ ci.after ≠ "*"))

/-- One bubbling pass of Go's `insertionSort`: `x` is the element at the
current position, the argument list is the already-processed prefix in
reversed order; `x` swaps leftwards while `less(x, left neighbour)`. -/
def bubble (less : α → α → Bool) (x : α) : List α → List α
  | [] => [x]
  | y :: ys => if less x y then y :: bubble less x ys else x :: y :: ys

/-- Functional form of one whole-list insertion-sort pass (the
processed prefix is carried in reversed order).  This is what
`sort.SliceStable` amounts to on slices of at most 20 elements; the
full block-merge algorithm is defined below. -/
def insertionSortList (less : α → α → Bool) (l : List α) : List α :=
  (l.foldl (fun racc x => bubble less x racc) []).reverse

/-- Read `data[i]`; the sorter only reads in range, an out-of-range
read returns `default`. -/
def getL [Inhabited α] (l : List α) (i : Nat) : α :=
  (l.get? i).getD default

/-- The `data.Swap(i, j)` primitive of `sort.Interface`. -/
def swapL [Inhabited α] (l : List α) (i j : Nat) : List α :=
  if i < l.length ∧ j < l.length then (l.set i (getL l j)).set j (getL l i) else l

/-- Inner loop of the sort package's `insertionSort`:
`for j := i; j > a && data.Less(j, j-1); j-- { data.Swap(j, j-1) }`. -/
def insertInner (less : α → α → Bool) [Inhabited α] (a : Nat) :
    List α → Nat → List α
  | l, 0 => l
  | l, j + 1 =>
    if a < j + 1 ∧ less (getL l (j + 1)) (getL l j) = true then
      insertInner less a (swapL l (j + 1) j) j
    else l

/-- Outer loop of `insertionSort(data, a, b)`: `i` runs from `a + 1`
while `i < b`, counted down by `cnt = b - (a + 1)`. -/
def isortLoop (less : α → α → Bool) [Inhabited α] (a : Nat) :
    Nat → Nat → List α → List α
  | 0, _, l => l
  | cnt + 1, i, l => isortLoop less a cnt (i + 1) (insertInner less a l i)

/-- The sort package's `insertionSort(data, a, b)`. -/
def insertionSortGo (less : α → α → Bool) [Inhabited α]
    (l : List α) (a b : Nat) : List α :=
  isortLoop less a (b - (a + 1)) (a + 1) l

/-- First phase of the sort package's `stable`: insertion sort on each
block of 20 (`for b <= n { insertionSort(data, a, b); a = b; b +=
blockSize }` followed by `insertionSort(data, a, n)`).  The fuel bounds
the number of blocks; `n + 1` always suffices. -/
def insBlocks (less : α → α → Bool) [Inhabited α] (n : Nat) :
    Nat → Nat → Nat → List α → List α
  | 0, _, _, l => l
  | fuel + 1, a, b, l =>
    if b ≤ n then insBlocks less n fuel b (b + 20) (insertionSortGo less l a b)
    else insertionSortGo less l a n

/-- Binary search of `symMerge`'s first special case (`data[a:m]` a
single element): bisect `[i, j)` moving `i` past positions `h` with
`data.Less(h, a)`. -/
def symSearch1 (less : α → α → Bool) [Inhabited α] (l : List α) (a : Nat) :
    Nat → Nat → Nat → Nat
  | 0, i, _ => i
  | fuel + 1, i, j =>
    if i < j then
      if less (getL l ((i + j) / 2)) (getL l a) then
        symSearch1 less l a fuel ((i + j) / 2 + 1) j
      else symSearch1 less l a fuel i ((i + j) / 2)
    else i

/-- Binary search of `symMerge`'s second special case (`data[m:b]` a
single element): bisect `[i, j)` moving `i` past positions `h` with
`!data.Less(m, h)`. -/
def symSearch2 (less : α → α → Bool) [Inhabited α] (l : List α) (m : Nat) :
    Nat → Nat → Nat → Nat
  | 0, i, _ => i
  | fuel + 1, i, j =>
    if i < j then
      if !(less (getL l m) (getL l ((i + j) / 2))) then
        symSearch2 less l m fuel ((i + j) / 2 + 1) j
      else symSearch2 less l m fuel i ((i + j) / 2)
    else i

/-- Binary search for `symMerge`'s symmetric split point:
`for start < r { c := (start+r)/2; if !data.Less(p-c, c) { start = c+1 }
else { r = c } }` with `p = n - 1`. -/
def symSearch3 (less : α → α → Bool) [Inhabited α] (l : List α) (n : Nat) :
    Nat → Nat → Nat → Nat
  | 0, start, _ => start
  | fuel + 1, start, r =>
    if start < r then
      if !(less (getL l (n - 1 - (start + r) / 2)) (getL l ((start + r) / 2))) then
        symSearch3 less l n fuel ((start + r) / 2 + 1) r
      else symSearch3 less l n fuel start ((start + r) / 2)
    else start

/-- The sort package's `swapRange(data, a, b, n)`. -/
def swapRangeGo [Inhabited α] : List α → Nat → Nat → Nat → List α
  | l, _, _, 0 => l
  | l, a, b, k + 1 => swapRangeGo (swapL l a b) (a + 1) (b + 1) k

/-- Loop of the sort package's `rotate(data, a, m, b)`: block swaps
until `i == j`; returns the list with the final `i`.  The fuel bounds
the iteration count (`i + j` strictly decreases each round). -/
def rotateLoop [Inhabited α] (m : Nat) :
    Nat → Nat → Nat → List α → List α × Nat
  | 0, i, _, l => (l, i)
  | fuel + 1, i, j, l =>
    if i ≠ j then
      if j < i then rotateLoop m fuel (i - j) j (swapRangeGo l (m - i) m j)
      else rotateLoop m fuel i (j - i) (swapRangeGo l (m - i) (m + j - i) i)
    else (l, i)

/-- The sort package's `rotate(data, a, m, b)`. -/
def rotateGo [Inhabited α] (l : List α) (a m b : Nat) : List α :=
  match rotateLoop m (m - a + (b - m)) (m - a) (b - m) l with
  | (l1, i) => swapRangeGo l1 (m - i) m i

/-- The swap run `for k := a; k < i-1; k++ { data.Swap(k, k+1) }`,
counted by the number of swaps performed. -/
def swapFwd [Inhabited α] : List α → Nat → Nat → List α
  | l, _, 0 => l
  | l, k, c + 1 => swapFwd (swapL l k (k + 1)) (k + 1) c

/-- The swap run `for k := m; k > i; k-- { data.Swap(k, k-1) }`,
counted by the number of swaps performed. -/
def swapBwd [Inhabited α] : List α → Nat → Nat → List α
  | l, _, 0 => l
  | l, k, c + 1 => swapBwd (swapL l k (k - 1)) (k - 1) c

/-- Tail of `symMerge`'s general case once `mid`, `start` and
`end` (`en`) are computed: the guarded `rotate` and the two guarded
recursive calls. -/
def symCore [Inhabited α] (rec : List α → Nat → Nat → Nat → List α)
    (l : List α) (a m b mid start en : Nat) : List α :=
  let l1 := if start < m ∧ m < en then rotateGo l start m en else l
  let l2 := if a < start ∧ start < mid then rec l1 a start mid else l1
  if mid < en ∧ en < b then rec l2 mid en b else l2

/-- General case of `symMerge(data, a, m, b)`: compute `mid := (a+b)/2`
and `n := mid + m`, pick the search window (`start = n-b, r = mid` when
`m > mid`, else `start = a, r = m`), locate the symmetric split point,
then rotate and recurse. -/
def symGeneral (less : α → α → Bool) [Inhabited α]
    (rec : List α → Nat → Nat → Nat → List α)
    (l : List α) (a m b : Nat) : List α :=
  let mid := (a + b) / 2
  let n := mid + m
  let start := if mid < m then symSearch3 less l n (mid - (n - b) + 1) (n - b) mid
               else symSearch3 less l n (m - a + 1) a m
  symCore rec l a m b mid start (n - start)

/-- The sort package's `symMerge(data, a, m, b)`: merge the sorted runs
`data[a:m]` and `data[m:b]` in place, with the two single-element
special cases handled by binary insertion.  The fuel bounds the
recursion depth; `b - a` always suffices. -/
def symMergeGo (less : α → α → Bool) [Inhabited α] :
    Nat → List α → Nat → Nat → Nat → List α
  | 0, l, _, _, _ => l
  | fuel + 1, l, a, m, b =>
    if m - a = 1 then
      swapFwd l a (symSearch1 less l a (b - m + 1) m b - 1 - a)
    else if b - m = 1 then
      swapBwd l m (m - symSearch2 less l m (m - a + 1) a m)
    else symGeneral less (symMergeGo less fuel) l a m b

/-- One round of `stable`'s merge phase: `for b <= n
{ symMerge(data, a, a+blockSize, b); a = b; b += 2*blockSize }` plus
the trailing partial merge. -/
def mergeRound (less : α → α → Bool) [Inhabited α] (n bs : Nat) :
    Nat → Nat → Nat → List α → List α
  | 0, _, _, l => l
  | fuel + 1, a, b, l =>
    if b ≤ n then
      mergeRound less n bs fuel b (b + 2 * bs) (symMergeGo less (n + 1) l a (a + bs) b)
    else if a + bs < n then symMergeGo less (n + 1) l a (a + bs) n
    else l

/-- Outer doubling loop of `stable`:
`for blockSize < n { ...; blockSize *= 2 }`. -/
def mergeRounds (less : α → α → Bool) [Inhabited α] (n : Nat) :
    Nat → Nat → List α → List α
  | 0, _, l => l
  | fuel + 1, bs, l =>
    if bs < n then mergeRounds less n fuel (bs * 2) (mergeRound less n bs (n + 1) 0 (2 * bs) l)
    else l

/-- The sort package's `stable(data, n)`: insertion sort on blocks of
20, then merge rounds with doubling block size.  This is exactly what
`sort.SliceStable` executes. -/
def stableGo (less : α → α → Bool) [Inhabited α] (l : List α) : List α :=
  mergeRounds less l.length (l.length + 1) 20
    (insBlocks less l.length (l.length + 1) 0 20 l)

/-- The call `sort.SliceStable(cs, less)` made by `sortCallbacks`
(line 283). -/
def goStableSort (less : α → α → Bool) [Inhabited α] (l : List α) : List α :=
  stableGo less l

/-- Working state of `sortCallbacks`: the (mutable) callback slice and
the `sorted` name list. -/
structure SortState where
  cs : List Callback
  sorted : List String
deriving Inhabited

/-- Lines 302–318 of `sortCallbacks` (`if c.before != "" { ... }`):
the before-constraint step for the callback at index `i`.  Returns the
new state and an optional conflict error. -/
def stepBefore (names : List String) (st : SortState) (i : Nat) :
    SortState × Option String :=
  let c := getCb st.cs i
  if c.before = "" then (st, none)
  else if c.before = "*" ∧ st.sorted ≠ [] then
    -- `sorted = append([]string{c.name}, sorted...)` unless already sorted
    match getRIndex st.sorted c.name with
    | none => ({ st with sorted := c.name :: st.sorted }, none)
    | some _ => (st, none)
  else
    match getRIndex st.sorted c.before with
    | some sortedIdx =>
      match getRIndex st.sorted c.name with
      | none =>
        -- insert c.name just before position sortedIdx
        ({ st with sorted :=
            st.sorted.take sortedIdx ++ c.name :: st.sorted.drop sortedIdx }, none)
      | some curIdx =>
        if sortedIdx < curIdx then
          (st, some ("conflicting callback " ++ c.name ++ " with before " ++ c.before))
        else (st, none)
    | none =>
      match getRIndex names c.before with
      | some idx => ({ st with cs := setAfter st.cs idx c.name }, none)
      | none => (st, none)

/-- Lines 351–354: append `c.name` to `sorted` if it is not there yet. -/
def finalAppend (st : SortState) (i : Nat) : SortState :=
  let c := getCb st.cs i
  match getRIndex st.sorted c.name with
  | none => { st with sorted := st.sorted ++ [c.name] }
  | some _ => st

/-- In the deferred-after branch (lines 332–340): `after := cs[idx]`,
and `after.before = c.name` when the target's `before` is empty. -/
def deferTarget (st : SortState) (i idx : Nat) : SortState :=
  if (getCb st.cs idx).before = "" then
    { st with cs := setBefore st.cs idx ((getCb st.cs i).name) }
  else st

/-- Lines 320–349 of `sortCallbacks` (`if c.after != "" { ... }`): the
after-constraint step for the callback at index `i`.  `rec` is the
recursive `sortCallback` used by the deferred-resolution branch (lines
341–347). -/
def stepAfter (rec : SortState → Nat → SortState × Option String)
    (names : List String) (st1 : SortState) (i : Nat) : SortState × Option String :=
  let c := getCb st1.cs i
  if c.after = "" then (st1, none)
  else if c.after = "*" ∧ st1.sorted ≠ [] then
    -- `sorted = append(sorted, c.name)` unless already sorted
    match getRIndex st1.sorted c.name with
    | none => ({ st1 with sorted := st1.sorted ++ [c.name] }, none)
    | some _ => (st1, none)
  else
    match getRIndex st1.sorted c.after with
    | some sortedIdx =>
      match getRIndex st1.sorted c.name with
      | none => ({ st1 with sorted := st1.sorted ++ [c.name] }, none)
      | some curIdx =>
        if curIdx < sortedIdx then
          (st1, some ("conflicting callback " ++ c.name ++ " with before " ++ c.after))
        else (st1, none)
    | none =>
      match getRIndex names c.after with
      | some idx =>
        -- deferred resolution: point the target back at c, then
        -- recursively sort the target and then c itself
        match rec (deferTarget st1 i idx) idx with
        | (st3, some e) => (st3, some e)
        | (st3, none) => rec st3 i
      | none => (st1, none)

/-- Model of `sortCallback` (lines 301–357), on the callback at index `i`.
The callback is re-read from the state between the before-block and the
after-block (and inside recursive calls), reproducing Go's pointer
semantics under the in-place mutations.  `fuel` bounds the recursion
depth of the two nested `sortCallback` calls in the deferred-after
branch; Go has no such bound (cyclic constraints overflow the stack). -/
def sortCallbackF : Nat → List String → SortState → Nat → SortState × Option String
  | 0, _, st, _ => (st, some "fuel exhausted")
  | fuel + 1, names, st, i =>
    match stepBefore names st i with
    | (st1, some e) => (st1, some e)
    | (st1, none) =>
      match stepAfter (sortCallbackF fuel names) names st1 i with
      | (st2, some e) => (st2, some e)
      | (st2, none) => (finalAppend st2 i, none)

/-- The loop `for _, c := range cs { if err = sortCallback(c); ... }`
(lines 359–363), over the listed indices. -/
def sortLoop (fuel : Nat) (names : List String) :
    SortState → List Nat → SortState × Option String
  | st, [] => (st, none)
  | st, i :: is =>
    match sortCallbackF fuel names st i with
    | (st', some e) => (st', some e)
    | (st', none) => sortLoop fuel names st' is

/-- Loop body of lines 293–299: `acc` is the partially built
`(names, warns)` pair, the second list argument the still-unvisited
suffix of `cs`.  A warning is recorded when `idx > -1 && !c.replace &&
!c.remove && !cs[idx].remove`. -/
def buildNWAux (cs : List Callback) :
    List String × List String → List Callback → List String × List String
  | acc, [] => acc
  | acc, c :: rest =>
    buildNWAux cs
      (match getRIndex acc.1 c.name with
       | some idx =>
         if ¬c.replace ∧ ¬c.remove ∧ ¬(getCb cs idx).remove then
           (acc.1 ++ [c.name], acc.2 ++ [c.name])
         else (acc.1 ++ [c.name], acc.2)
       | none => (acc.1 ++ [c.name], acc.2)) rest

/-- Lines 293–299: build the `names` list and the duplicate-name
warnings. -/
def buildNamesWarns (cs : List Callback) : List String × List String :=
  buildNWAux cs ([], []) cs

/-- Lines 365–369: project the `sorted` names back to handlers, skipping
tombstoned entries, in `sorted` order.  (`getRIndex` cannot miss here
since `sorted` only holds names from `names`; a miss would be an
out-of-range access in Go.) -/
def project (cs : List Callback) (names : List String) : List String → List Nat
  | [] => []
  | n :: rest =>
    match getRIndex names n with
    | some idx =>
      if (getCb cs idx).remove then project cs names rest
      else (getCb cs idx).handler :: project cs names rest
    | none => project cs names rest

/-- Result of `sortCallbacks`: the (sorted, possibly mutated) callback
slice — which in Go is the very slice stored in `p.callbacks` — the
final `sorted` name list, the compiled `fns`, the duplicate-name
warnings, and the error.  On error Go returns with `fns` never
assigned, i.e. empty. -/
structure SortOut where
  cs : List Callback
  sorted : List String
  fns : List Nat
  warns : List String
  err : Option String
deriving Inhabited

/-- Model of `sortCallbacks(cs)` (lines 278–372). -/
def sortCallbacksF (fuel : Nat) (cs0 : List Callback) : SortOut :=
  let cs := goStableSort goLess cs0
  let nw := buildNamesWarns cs
  let res := sortLoop fuel nw.1 ⟨cs, []⟩ (List.range cs.length)
  match res with
  | (st, some e) => ⟨st.cs, st.sorted, [], nw.2, some e⟩
  | (st, none) => ⟨st.cs, st.sorted, project st.cs nw.1 st.sorted, nw.2, none⟩

/-- Model of `removeCallbacks(cs, nameMap)` (lines 375–384): drop every callback
whose name is in the removed-name set. -/
def removeCallbacks (cs : List Callback) (nameMap : List String) : List Callback :=
  cs.filter (fun c => ¬ c.name ∈ nameMap)

/-- The per-stage state: `processor.callbacks` (the registry) and
`processor.fns` (the compiled list).  `Clauses` and the `db` handle are
external. -/
structure Processor where
  callbacks : List Callback
  fns : List Nat
deriving Inhabited

/-- The guard `callback.match == nil || callback.match(p.db)`. -/
def matchPass (db : Nat) (c : Callback) : Bool :=
  match c.match_ with
  | none => true
  | some m => m db

/-- Result of `processor.compile`: the updated processor, the
duplicate-name warnings emitted by this compilation, and the error. -/
structure CompileRes where
  p : Processor
  warns : List String
  err : Option String
deriving Inhabited

/-- Model of `processor.compile` (lines 205–226): filter by `match`, collect
removed names, drop removed entries, store the filtered slice in
`p.callbacks` (which `sortCallbacks` then sorts and mutates in place),
and store `sortCallbacks`' result in `p.fns`. -/
def compile (fuel : Nat) (p : Processor) (db : Nat) : CompileRes :=
  let cands := p.callbacks.filter (matchPass db)
  let removedNames := (p.callbacks.filter (·.remove)).map (·.name)
  let cands := if removedNames.isEmpty then cands else removeCallbacks cands removedNames
  let out := sortCallbacksF fuel cands
  ⟨⟨out.cs, out.fns⟩, out.warns, out.err⟩

/-- Model of `callback.Register` reached through `processor.Register` /
`Before(...)...Register` / `After(...)...Register` (lines 190–192,
241–246): append a new entry and recompile. -/
def registerCb (fuel : Nat) (db : Nat) (p : Processor)
    (name before after : String) (h : Nat) : CompileRes :=
  compile fuel { p with callbacks := p.callbacks ++ [⟨name, before, after, false, false, none, h⟩] } db

/-- Model of `callback.Remove` (lines 249–255): append a tombstone and recompile. -/
def removeCb (fuel : Nat) (db : Nat) (p : Processor) (name : String) : CompileRes :=
  compile fuel { p with callbacks := p.callbacks ++ [⟨name, "", "", true, false, none, 0⟩] } db

/-- Model of `callback.Replace` (lines 258–265): append a replacing entry and
recompile. -/
def replaceCb (fuel : Nat) (db : Nat) (p : Processor) (name : String) (h : Nat) : CompileRes :=
  compile fuel { p with callbacks := p.callbacks ++ [⟨name, "", "", false, true, none, h⟩] } db

/-- Model of `processor.Get` (lines 165–172): scan the registry from the end and
return the handler of the last non-tombstoned entry with this name. -/
def getHandler (p : Processor) (name : String) : Option Nat :=
  (p.callbacks.reverse.find? (fun c => decide (c.name = name) && !c.remove)).map (·.handler)

/-! ### Basic lemmas about `getRIndex` and list insertion -/

theorem getRIndex_eq_none {l : List String} {s : String} :
    getRIndex l s = none ↔ s ∉ l := by
  induction l with
  | nil => simp [getRIndex]
  | cons x xs ih =>
    simp only [getRIndex, List.mem_cons]
    rcases h : getRIndex xs s with _ | i
    · have hs : s ∉ xs := ih.mp h
      by_cases hx : x = s
      · simp [hx]
      · have hsx : s ≠ x := fun e => hx e.symm
        simp [hx, hs, hsx]
    · have hs : s ∈ xs := by
        by_contra hc
        rw [ih.mpr hc] at h
        cases h
      simp [hs]

theorem getRIndex_lt_length {l : List String} {s : String} {i : Nat}
    (h : getRIndex l s = some i) : i < l.length := by
  induction l generalizing i with
  | nil => simp [getRIndex] at h
  | cons x xs ih =>
    simp only [getRIndex] at h
    rcases h' : getRIndex xs s with _ | j <;> rw [h'] at h
    · by_cases hx : x = s <;> simp [hx] at h
      simp [← h]
    · simp only [Option.some.injEq] at h
      have := ih h'
      simp only [List.length_cons, ← h]
      omega

theorem getRIndex_get {l : List String} {s : String} {i : Nat}
    (h : getRIndex l s = some i) : l.get? i = some s := by
  induction l generalizing i with
  | nil => simp [getRIndex] at h
  | cons x xs ih =>
    simp only [getRIndex] at h
    rcases h' : getRIndex xs s with _ | j <;> rw [h'] at h
    · by_cases hx : x = s <;> simp [hx] at h
      simp [← h, hx]
    · simp only [Option.some.injEq] at h
      subst h
      simpa using ih h'

theorem getRIndex_isSome_of_mem {l : List String} {s : String} (h : s ∈ l) :
    ∃ i, getRIndex l s = some i := by
  rcases h' : getRIndex l s with _ | i
  · exact absurd h (getRIndex_eq_none.mp h')
  · exact ⟨i, rfl⟩

theorem getRIndex_of_nodup {l : List String} {s : String} {i : Nat}
    (hnd : l.Nodup) (h : l.get? i = some s) : getRIndex l s = some i := by
  induction l generalizing i with
  | nil => simp at h
  | cons x xs ih =>
    rcases i with _ | i
    · simp only [List.get?] at h
      injection h with h
      subst h
      have hx : x ∉ xs := (List.nodup_cons.mp hnd).1
      have : getRIndex xs x = none := getRIndex_eq_none.mpr hx
      simp [getRIndex, this]
    · simp only [List.get?] at h
      have := ih (List.nodup_cons.mp hnd).2 h
      simp [getRIndex, this]

/-! ### Skeleton preservation: the compiler never touches `name`,
`handler`, `remove`, `replace` or the condition of a registered step;
only `before`/`after` can be rewritten. -/

/-- The fields of a callback other than `before`/`after`. -/
def skel (c : Callback) : String × Nat × Bool × Bool × Option (Nat → Bool) :=
  (c.name, c.handler, c.remove, c.replace, c.match_)

theorem skel_setAfter (cs : List Callback) (i : Nat) (a : String) :
    (setAfter cs i a).map skel = cs.map skel := by
  induction cs generalizing i with
  | nil => rfl
  | cons c cs ih =>
    rcases i with _ | i
    · rfl
    · show skel c :: (setAfter cs i a).map skel = skel c :: cs.map skel
      rw [ih]

theorem skel_setBefore (cs : List Callback) (i : Nat) (b : String) :
    (setBefore cs i b).map skel = cs.map skel := by
  induction cs generalizing i with
  | nil => rfl
  | cons c cs ih =>
    rcases i with _ | i
    · rfl
    · show skel c :: (setBefore cs i b).map skel = skel c :: cs.map skel
      rw [ih]

theorem names_of_skel {a b : List Callback} (h : a.map skel = b.map skel) :
    a.map (·.name) = b.map (·.name) := by
  have := congrArg (List.map (fun p => p.1)) h
  simpa [List.map_map, Function.comp] using this

theorem handlers_of_skel {a b : List Callback} (h : a.map skel = b.map skel) :
    a.map (·.handler) = b.map (·.handler) := by
  have := congrArg (List.map (fun p => p.2.1)) h
  simpa [List.map_map, Function.comp] using this

theorem length_of_skel {a b : List Callback} (h : a.map skel = b.map skel) :
    a.length = b.length := by
  have := congrArg List.length h
  simpa using this

theorem stepBefore_cs_skel (names : List String) (st : SortState) (i : Nat) :
    ((stepBefore names st i).1.cs).map skel = st.cs.map skel := by
  unfold stepBefore
  dsimp only
  split
  · rfl
  · split
    · split <;> rfl
    · split
      · split
        · rfl
        · split <;> rfl
      · split
        · exact skel_setAfter _ _ _
        · rfl

theorem finalAppend_cs (st : SortState) (i : Nat) : (finalAppend st i).cs = st.cs := by
  unfold finalAppend
  dsimp only
  split <;> rfl

theorem deferTarget_cs_skel (st : SortState) (i idx : Nat) :
    ((deferTarget st i idx).cs).map skel = st.cs.map skel := by
  unfold deferTarget
  split
  · exact skel_setBefore _ _ _
  · rfl

theorem stepAfter_cs_skel (rec : SortState → Nat → SortState × Option String)
    (hrec : ∀ st' j, ((rec st' j).1.cs).map skel = st'.cs.map skel)
    (names : List String) (st : SortState) (i : Nat) :
    ((stepAfter rec names st i).1.cs).map skel = st.cs.map skel := by
  unfold stepAfter
  dsimp only
  split
  · rfl
  · split
    · split <;> rfl
    · split
      · split
        · rfl
        · split <;> rfl
      · split
        · rename_i idx heq
          rcases hR : rec (deferTarget st i idx) idx with ⟨st3, e3⟩
          have h3 : st3.cs.map skel = st.cs.map skel := by
            have := hrec (deferTarget st i idx) idx
            rw [hR] at this
            exact this.trans (deferTarget_cs_skel st i idx)
          rcases e3 with _ | e3
          · dsimp only
            exact (hrec st3 i).trans h3
          · exact h3
        · rfl

theorem sortCallbackF_cs_skel :
    ∀ (fuel : Nat) (names : List String) (st : SortState) (i : Nat),
      ((sortCallbackF fuel names st i).1.cs).map skel = st.cs.map skel := by
  intro fuel
  induction fuel with
  | zero => intro names st i; rfl
  | succ n ih =>
    intro names st i
    rw [sortCallbackF]
    rcases hB : stepBefore names st i with ⟨st1, e1⟩
    have hBs : st1.cs.map skel = st.cs.map skel := by
      have := stepBefore_cs_skel names st i
      rw [hB] at this
      exact this
    rcases e1 with _ | e
    · dsimp only
      rcases hA : stepAfter (sortCallbackF n names) names st1 i with ⟨st2, e2⟩
      have hAs : st2.cs.map skel = st1.cs.map skel := by
        have := stepAfter_cs_skel (sortCallbackF n names) (fun st' j => ih names st' j) names st1 i
        rw [hA] at this
        exact this
      rcases e2 with _ | e2 <;> dsimp only
      · rw [finalAppend_cs]
        exact hAs.trans hBs
      · exact hAs.trans hBs
    · exact hBs

theorem sortLoop_cs_skel (fuel : Nat) (names : List String) :
    ∀ (is : List Nat) (st : SortState),
      ((sortLoop fuel names st is).1.cs).map skel = st.cs.map skel := by
  intro is
  induction is with
  | nil => intro st; rfl
  | cons i is ih =>
    intro st
    rw [sortLoop]
    rcases h : sortCallbackF fuel names st i with ⟨st', e⟩
    have hs : st'.cs.map skel = st.cs.map skel := by
      have := sortCallbackF_cs_skel fuel names st i
      rw [h] at this
      exact this
    rcases e with _ | e <;> dsimp only
    · exact (ih st').trans hs
    · exact hs

/-- The compiler core `sortCallbacks` only reorders the callback slice and rewrites
`before`/`after` fields: every other field survives pointwise. -/
theorem sortCallbacksF_cs_skel (fuel : Nat) (cs0 : List Callback) :
    ((sortCallbacksF fuel cs0).cs).map skel = (goStableSort goLess cs0).map skel := by
  unfold sortCallbacksF
  dsimp only
  rcases h : sortLoop fuel (buildNamesWarns (goStableSort goLess cs0)).1
      ⟨goStableSort goLess cs0, []⟩ (List.range (goStableSort goLess cs0).length) with ⟨st, e⟩
  have hs : st.cs.map skel = (goStableSort goLess cs0).map skel := by
    have := sortLoop_cs_skel fuel (buildNamesWarns (goStableSort goLess cs0)).1
      (List.range (goStableSort goLess cs0).length) ⟨goStableSort goLess cs0, []⟩
    rw [h] at this
    exact this
  rcases e with _ | e <;> simp only [h] <;> exact hs

theorem mem_insertAt {l : List String} {x a : String} {k : Nat} :
    a ∈ (l.take k ++ x :: l.drop k) ↔ a = x ∨ a ∈ l := by
  simp only [List.mem_append, List.mem_cons]
  constructor
  · rintro (h | h | h)
    · exact Or.inr (List.take_subset k l h)
    · exact Or.inl h
    · exact Or.inr (List.drop_subset k l h)
  · rintro (h | h)
    · exact Or.inr (Or.inl h)
    · rw [← List.take_append_drop k l] at h
      rcases List.mem_append.mp h with h | h
      · exact Or.inl h
      · exact Or.inr (Or.inr h)

theorem nodup_insertAt {l : List String} {x : String} {k : Nat}
    (hx : x ∉ l) (hnd : l.Nodup) : (l.take k ++ x :: l.drop k).Nodup := by
  have hl : (l.take k ++ l.drop k).Nodup := by rw [List.take_append_drop]; exact hnd
  rcases List.nodup_append.mp hl with ⟨h1, h2, h3⟩
  refine List.nodup_append.mpr ⟨h1, ?_, ?_⟩
  · refine List.nodup_cons.mpr ⟨fun hc => hx (List.drop_subset k l hc), h2⟩
  · intro a ha
    refine fun hb => ?_
    rcases List.mem_cons.mp hb with rfl | hb
    · exact hx (List.take_subset k l ha)
    · exact h3 ha hb

/-! ### Invariants of the `sorted` working list -/

theorem name_mem_names {cs : List Callback} {names : List String} {i : Nat}
    (hn : cs.map (·.name) = names) (hi : i < names.length) :
    (getCb cs i).name ∈ names := by
  subst hn
  rw [List.length_map] at hi
  rcases h : cs.get? i with _ | c0
  · exact absurd (List.get?_eq_none.mp h) (by omega)
  · have hc : (getCb cs i) = c0 := by
      unfold getCb
      rw [h]
      rfl
    rw [hc]
    have : (cs.map (·.name)).get? i = some c0.name := by
      rw [List.get?_map, h]
      rfl
    exact List.get?_mem this

theorem getCb_name_eq {a b : List Callback} (h : a.map (·.name) = b.map (·.name))
    (i : Nat) : (getCb a i).name = (getCb b i).name := by
  have hg : (a.get? i).map (·.name) = (b.get? i).map (·.name) := by
    rw [← List.get?_map, ← List.get?_map, h]
  unfold getCb
  rcases ha : a.get? i with _ | ca <;> rcases hb : b.get? i with _ | cb <;>
    rw [ha, hb] at hg <;> simp at hg <;> simp [hg]

/-- Invariant bundle for a recursive `sortCallback` reference: already
sorted names stay, nodup is preserved, new names come from `names`, and
on success the argument callback's name has been sorted. -/
def RecInv (names : List String) (rec : SortState → Nat → SortState × Option String) : Prop :=
  ∀ st j, st.cs.map (·.name) = names → j < names.length →
    (∀ n ∈ st.sorted, n ∈ (rec st j).1.sorted) ∧
    (st.sorted.Nodup → (rec st j).1.sorted.Nodup) ∧
    (∀ n ∈ (rec st j).1.sorted, n ∈ st.sorted ∨ n ∈ names) ∧
    ((rec st j).2 = none → (getCb st.cs j).name ∈ (rec st j).1.sorted)

theorem stepBefore_inv (names : List String) (st : SortState) (i : Nat) :
    (∀ n ∈ st.sorted, n ∈ (stepBefore names st i).1.sorted) ∧
    (st.sorted.Nodup → (stepBefore names st i).1.sorted.Nodup) ∧
    (∀ n ∈ (stepBefore names st i).1.sorted,
      n = (getCb st.cs i).name ∨ n ∈ st.sorted) := by
  unfold stepBefore
  dsimp only
  split
  · exact ⟨fun n h => h, fun h => h, fun n h => Or.inr h⟩
  · split
    · split
      · rename_i heq
        have hnm : (getCb st.cs i).name ∉ st.sorted := getRIndex_eq_none.mp heq
        refine ⟨fun n h => List.mem_cons_of_mem _ h,
          fun h => List.nodup_cons.mpr ⟨hnm, h⟩, fun n h => ?_⟩
        rcases List.mem_cons.mp h with h | h
        exacts [Or.inl h, Or.inr h]
      · exact ⟨fun n h => h, fun h => h, fun n h => Or.inr h⟩
    · split
      · split
        · rename_i heq
          have hnm : (getCb st.cs i).name ∉ st.sorted := getRIndex_eq_none.mp heq
          refine ⟨fun n h => mem_insertAt.mpr (Or.inr h),
            fun h => nodup_insertAt hnm h, fun n h => ?_⟩
          rcases mem_insertAt.mp h with h | h
          exacts [Or.inl h, Or.inr h]
        · split <;> exact ⟨fun n h => h, fun h => h, fun n h => Or.inr h⟩
      · split <;> exact ⟨fun n h => h, fun h => h, fun n h => Or.inr h⟩

theorem stepAfter_inv (rec : SortState → Nat → SortState × Option String)
    (hskel : ∀ st' j, ((rec st' j).1.cs).map skel = st'.cs.map skel)
    (names : List String) (hrec : RecInv names rec)
    (st : SortState) (i : Nat)
    (hn : st.cs.map (·.name) = names) (hi : i < names.length) :
    (∀ n ∈ st.sorted, n ∈ (stepAfter rec names st i).1.sorted) ∧
    (st.sorted.Nodup → (stepAfter rec names st i).1.sorted.Nodup) ∧
    (∀ n ∈ (stepAfter rec names st i).1.sorted, n ∈ st.sorted ∨ n ∈ names) := by
  have hmem : (getCb st.cs i).name ∈ names := name_mem_names hn hi
  have happend : ∀ heq : getRIndex st.sorted (getCb st.cs i).name = none,
      (∀ n ∈ st.sorted, n ∈ st.sorted ++ [(getCb st.cs i).name]) ∧
      (st.sorted.Nodup → (st.sorted ++ [(getCb st.cs i).name]).Nodup) ∧
      (∀ n ∈ st.sorted ++ [(getCb st.cs i).name], n ∈ st.sorted ∨ n ∈ names) := by
    intro heq
    have hnm : (getCb st.cs i).name ∉ st.sorted := getRIndex_eq_none.mp heq
    refine ⟨fun n h => List.mem_append_left _ h, fun h => ?_, fun n h => ?_⟩
    · refine List.nodup_append.mpr ⟨h, List.nodup_singleton _, ?_⟩
      intro a ha hb
      rw [List.mem_singleton] at hb
      subst hb
      exact hnm ha
    · rcases List.mem_append.mp h with h | h
      · exact Or.inl h
      · rw [List.mem_singleton] at h
        subst h
        exact Or.inr hmem
  unfold stepAfter
  dsimp only
  split
  · exact ⟨fun n h => h, fun h => h, fun n h => Or.inl h⟩
  · split
    · split
      · rename_i heq
        exact happend heq
      · exact ⟨fun n h => h, fun h => h, fun n h => Or.inl h⟩
    · split
      · split
        · rename_i heq
          exact happend heq
        · split <;> exact ⟨fun n h => h, fun h => h, fun n h => Or.inl h⟩
      · split
        · rename_i idx heq
          have hidx : idx < names.length := getRIndex_lt_length heq
          have hdn : (deferTarget st i idx).cs.map (·.name) = names := by
            rw [names_of_skel (deferTarget_cs_skel st i idx), hn]
          have hds : (deferTarget st i idx).sorted = st.sorted := by
            unfold deferTarget
            split <;> rfl
          rcases hR : rec (deferTarget st i idx) idx with ⟨st3, e3⟩
          have h1 := hrec (deferTarget st i idx) idx hdn hidx
          rw [hR] at h1
          rcases h1 with ⟨h1a, h1b, h1c, -⟩
          rw [hds] at h1a h1b h1c
          have h3n : st3.cs.map (·.name) = names := by
            have := hskel (deferTarget st i idx) idx
            rw [hR] at this
            rw [names_of_skel this, hdn]
          rcases e3 with _ | e3
          · dsimp only
            have h2 := hrec st3 i h3n hi
            rcases h2 with ⟨h2a, h2b, h2c, -⟩
            refine ⟨fun n h => h2a n (h1a n h), fun h => h2b (h1b h), fun n h => ?_⟩
            rcases h2c n h with h | h
            · exact h1c n h
            · exact Or.inr h
          · exact ⟨h1a, h1b, h1c⟩
        · exact ⟨fun n h => h, fun h => h, fun n h => Or.inl h⟩

theorem finalAppend_inv (st : SortState) (i : Nat) :
    (∀ n ∈ st.sorted, n ∈ (finalAppend st i).sorted) ∧
    (st.sorted.Nodup → (finalAppend st i).sorted.Nodup) ∧
    (∀ n ∈ (finalAppend st i).sorted, n = (getCb st.cs i).name ∨ n ∈ st.sorted) ∧
    (getCb st.cs i).name ∈ (finalAppend st i).sorted := by
  unfold finalAppend
  dsimp only
  split
  · rename_i heq
    have hnm : (getCb st.cs i).name ∉ st.sorted := getRIndex_eq_none.mp heq
    refine ⟨fun n h => List.mem_append_left _ h, fun h => ?_, fun n h => ?_, ?_⟩
    · refine List.nodup_append.mpr ⟨h, List.nodup_singleton _, ?_⟩
      intro a ha hb
      rw [List.mem_singleton] at hb
      subst hb
      exact hnm ha
    · rcases List.mem_append.mp h with h | h
      · exact Or.inr h
      · rw [List.mem_singleton] at h
        exact Or.inl h
    · exact List.mem_append_right _ (List.mem_singleton.mpr rfl)
  · rename_i j heq
    exact ⟨fun n h => h, fun h => h, fun n h => Or.inr h,
      List.get?_mem (getRIndex_get heq)⟩

theorem sortCallbackF_inv (fuel : Nat) (names : List String) :
    RecInv names (sortCallbackF fuel names) := by
  induction fuel with
  | zero =>
    intro st j hn hj
    exact ⟨fun n h => h, fun h => h, fun n h => Or.inl h, fun h => by cases h⟩
  | succ n ih =>
    intro st i hn hi
    rw [sortCallbackF]
    rcases hB : stepBefore names st i with ⟨st1, e1⟩
    have hBi := stepBefore_inv names st i
    rw [hB] at hBi
    rcases hBi with ⟨hBa, hBb, hBc⟩
    have hB1n : st1.cs.map (·.name) = names := by
      have := stepBefore_cs_skel names st i
      rw [hB] at this
      rw [names_of_skel this, hn]
    have hmem : (getCb st.cs i).name ∈ names := name_mem_names hn hi
    rcases e1 with _ | e
    · dsimp only
      rcases hA : stepAfter (sortCallbackF n names) names st1 i with ⟨st2, e2⟩
      have hAi := stepAfter_inv (sortCallbackF n names)
        (fun st' j => sortCallbackF_cs_skel n names st' j) names ih st1 i hB1n hi
      rw [hA] at hAi
      rcases hAi with ⟨hAa, hAb, hAc⟩
      have hA2n : st2.cs.map (·.name) = names := by
        have := stepAfter_cs_skel (sortCallbackF n names)
          (fun st' j => sortCallbackF_cs_skel n names st' j) names st1 i
        rw [hA] at this
        rw [names_of_skel this, hB1n]
      rcases e2 with _ | e2 <;> dsimp only
      · rcases finalAppend_inv st2 i with ⟨hFa, hFb, hFc, hFd⟩
        refine ⟨fun n h => hFa n (hAa n (hBa n h)), fun h => hFb (hAb (hBb h)),
          fun n h => ?_, fun _ => ?_⟩
        · rcases hFc n h with h | h
          · right
            rw [getCb_name_eq (hA2n.trans hn.symm) i] at h
            exact h ▸ hmem
          · rcases hAc n h with h | h
            · rcases hBc n h with h | h
              · exact Or.inr (h ▸ hmem)
              · exact Or.inl h
            · exact Or.inr h
        · rw [getCb_name_eq (hn.trans hA2n.symm) i]
          exact hFd
      · refine ⟨fun n h => hAa n (hBa n h), fun h => hAb (hBb h),
          fun n h => ?_, fun h => by cases h⟩
        rcases hAc n h with h | h
        · rcases hBc n h with h | h
          · exact Or.inr (h ▸ hmem)
          · exact Or.inl h
        · exact Or.inr h
    · dsimp only
      refine ⟨hBa, hBb, fun n h => ?_, fun h => by cases h⟩
      rcases hBc n h with h | h
      · exact Or.inr (h ▸ hmem)
      · exact Or.inl h

theorem sortLoop_inv (fuel : Nat) (names : List String) :
    ∀ (is : List Nat) (st st' : SortState) (e : Option String),
      sortLoop fuel names st is = (st', e) →
      st.cs.map (·.name) = names → (∀ i ∈ is, i < names.length) →
      (∀ n ∈ st.sorted, n ∈ st'.sorted) ∧
      (st.sorted.Nodup → st'.sorted.Nodup) ∧
      (∀ n ∈ st'.sorted, n ∈ st.sorted ∨ n ∈ names) ∧
      (e = none → ∀ i ∈ is, (getCb st.cs i).name ∈ st'.sorted) := by
  intro is
  induction is with
  | nil =>
    intro st st' e h hn his
    rw [sortLoop] at h
    injection h with h1 h2
    subst h1
    subst h2
    exact ⟨fun n h => h, fun h => h, fun n h => Or.inl h, fun _ i hi => absurd hi (by simp)⟩
  | cons i is ih =>
    intro st st' e h hn his
    rw [sortLoop] at h
    rcases hc : sortCallbackF fuel names st i with ⟨stm, em⟩
    rw [hc] at h
    have hi : i < names.length := his i (List.mem_cons_self i is)
    have hinv := sortCallbackF_inv fuel names st i hn hi
    rw [hc] at hinv
    rcases hinv with ⟨ha, hb, hcn, hd⟩
    have hmn : stm.cs.map (·.name) = names := by
      have := sortCallbackF_cs_skel fuel names st i
      rw [hc] at this
      rw [names_of_skel this, hn]
    rcases em with _ | em
    · dsimp only at h
      rcases ih stm st' e h hmn (fun j hj => his j (List.mem_cons_of_mem i hj)) with
        ⟨ra, rb, rc, rd⟩
      refine ⟨fun n hs => ra n (ha n hs), fun hs => rb (hb hs), fun n hs => ?_,
        fun he j hj => ?_⟩
      · rcases rc n hs with hs | hs
        · exact hcn n hs
        · exact Or.inr hs
      · rcases List.mem_cons.mp hj with rfl | hj
        · exact ra _ (hd rfl)
        · rw [getCb_name_eq (hn.trans hmn.symm) j]
          exact rd he j hj
    · dsimp only at h
      injection h with h1 h2
      subst h1
      subst h2
      exact ⟨ha, hb, hcn, fun he => by cases he⟩

theorem buildNWAux_fst (cs : List Callback) :
    ∀ (l : List Callback) (acc : List String × List String),
      (buildNWAux cs acc l).1 = acc.1 ++ l.map (·.name) := by
  intro l
  induction l with
  | nil => intro acc; simp [buildNWAux]
  | cons c rest ih =>
    intro acc
    rw [buildNWAux, ih]
    rcases h : getRIndex acc.1 c.name with _ | idx
    · dsimp only
      simp
    · dsimp only
      split <;> simp

theorem buildNamesWarns_fst (cs : List Callback) :
    (buildNamesWarns cs).1 = cs.map (·.name) := by
  rw [buildNamesWarns, buildNWAux_fst]
  rfl

/-- When a name is fresh at every step (`Nodup`), no duplicate warning
fires. -/
theorem buildNWAux_snd_nodup (cs : List Callback) :
    ∀ (l : List Callback) (acc : List String × List String),
      (∀ c ∈ l, c.name ∉ acc.1) → (l.map (·.name)).Nodup →
      (buildNWAux cs acc l).2 = acc.2 := by
  intro l
  induction l with
  | nil => intro acc _ _; rfl
  | cons c rest ih =>
    intro acc hfresh hnd
    have hnd' : c.name ∉ rest.map (·.name) ∧ (rest.map (·.name)).Nodup := by
      rw [List.map_cons] at hnd
      exact List.nodup_cons.mp hnd
    rw [buildNWAux]
    have h0 : getRIndex acc.1 c.name = none :=
      getRIndex_eq_none.mpr (hfresh c (List.mem_cons_self c rest))
    rw [h0]
    refine ih _ ?_ hnd'.2
    intro c' hc'
    simp only [List.mem_append, List.mem_singleton]
    rintro (h | h)
    · exact hfresh c' (List.mem_cons_of_mem c hc') h
    · exact hnd'.1 (h ▸ List.mem_map_of_mem (·.name) hc')

/-! ### The projection loop -/

/-- Looking up a name in a nodup name list finds the callback itself. -/
theorem getRIndex_names_self {cs : List Callback} {i : Nat} {c : Callback}
    (hnd : (cs.map (·.name)).Nodup) (h : cs.get? i = some c) :
    getRIndex (cs.map (·.name)) c.name = some i ∧ getCb cs i = c := by
  refine ⟨getRIndex_of_nodup hnd ?_, ?_⟩
  · rw [List.get?_map, h]
    rfl
  · unfold getCb
    rw [h]
    rfl

/-! ### `goStableSort` is a permutation -/

theorem bubble_perm (less : α → α → Bool) (x : α) :
    ∀ l : List α, (bubble less x l).Perm (x :: l) := by
  intro l
  induction l with
  | nil => exact List.Perm.refl _
  | cons y ys ih =>
    rw [bubble]
    split
    · exact (List.Perm.cons y ih).trans (List.Perm.swap x y ys)
    · exact List.Perm.refl _

theorem foldl_bubble_perm (less : α → α → Bool) :
    ∀ (l : List α) (acc : List α),
      (l.foldl (fun racc x => bubble less x racc) acc).Perm (l ++ acc) := by
  intro l
  induction l with
  | nil => intro acc; simp
  | cons x xs ih =>
    intro acc
    rw [List.foldl_cons]
    refine (ih (bubble less x acc)).trans ?_
    have h1 : (xs ++ bubble less x acc).Perm (xs ++ x :: acc) :=
      List.Perm.append_left xs (bubble_perm less x acc)
    exact h1.trans List.perm_middle

theorem insertionSortList_perm (less : α → α → Bool) (l : List α) :
    (insertionSortList less l).Perm l := by
  unfold insertionSortList
  refine (List.reverse_perm _).trans ?_
  simpa using foldl_bubble_perm less l []

theorem getL_mem [Inhabited α] {l : List α} {i : Nat} (h : i < l.length) :
    getL l i ∈ l := by
  unfold getL
  rw [List.get?_eq_get h]
  exact List.get_mem l i h

theorem set_len_append (A : List α) (u x : α) (rest : List α) :
    (A ++ u :: rest).set A.length x = A ++ x :: rest := by
  induction A with
  | nil => rfl
  | cons a A ih =>
    show (a :: (A ++ u :: rest)).set (A.length + 1) x = a :: (A ++ x :: rest)
    rw [List.set_cons_succ, ih]

theorem getL_len_append [Inhabited α] (A : List α) (u : α) (rest : List α) :
    getL (A ++ u :: rest) A.length = u := by
  unfold getL
  rw [List.get?_append_right (Nat.le_refl _), Nat.sub_self]
  rfl

theorem middle_swap_perm (A B C : List α) (u v : α) :
    ((A ++ v :: B) ++ u :: C).Perm ((A ++ u :: B) ++ v :: C) := by
  rw [List.append_assoc, List.append_assoc, List.cons_append, List.cons_append]
  refine List.Perm.append_left A ?_
  refine List.Perm.trans (List.Perm.cons v List.perm_middle) ?_
  refine List.Perm.trans (List.Perm.swap u v (B ++ C)) ?_
  exact List.Perm.cons u List.perm_middle.symm

theorem list_two_split [Inhabited α] (l : List α) (i j : Nat) (hij : i < j)
    (hj : j < l.length) :
    ∃ A B C u v, l = (A ++ u :: B) ++ v :: C ∧ A.length = i ∧
      (A ++ u :: B).length = j ∧ getL l i = u ∧ getL l j = v := by
  have hi : i < l.length := Nat.lt_trans hij hj
  refine ⟨l.take i, (l.drop (i + 1)).take (j - i - 1), l.drop (j + 1),
    getL l i, getL l j, ?_, ?_, ?_, rfl, rfl⟩
  · have h1 : l = l.take i ++ l.drop i := (List.take_append_drop i l).symm
    have h2 : l.drop i = getL l i :: l.drop (i + 1) := by
      rw [List.drop_eq_get_cons hi]
      unfold getL
      rw [List.get?_eq_get hi]
      rfl
    have h3 : l.drop (i + 1) =
        (l.drop (i + 1)).take (j - i - 1) ++ (l.drop (i + 1)).drop (j - i - 1) :=
      (List.take_append_drop _ _).symm
    have h4 : (l.drop (i + 1)).drop (j - i - 1) = l.drop j := by
      rw [List.drop_drop]
      congr 1
      omega
    have h5 : l.drop j = getL l j :: l.drop (j + 1) := by
      rw [List.drop_eq_get_cons hj]
      unfold getL
      rw [List.get?_eq_get hj]
      rfl
    conv_lhs => rw [h1, h2, h3, h4, h5]
    simp [List.append_assoc]
  · exact List.length_take_of_le (Nat.le_of_lt hi)
  · rw [List.length_append, List.length_cons, List.length_take_of_le (Nat.le_of_lt hi),
      List.length_take_of_le (by rw [List.length_drop]; omega)]
    omega

theorem swap_decomp_perm [Inhabited α] (A B C : List α) (u v : α) (i j : Nat)
    (hA : A.length = i) (hAB : (A ++ u :: B).length = j) :
    ((((A ++ u :: B) ++ v :: C).set i v).set j u).Perm ((A ++ u :: B) ++ v :: C) := by
  have h1 : ((A ++ u :: B) ++ v :: C).set i v = A ++ v :: (B ++ v :: C) := by
    rw [List.append_assoc, List.cons_append, ← hA, set_len_append]
  have hAB' : (A ++ v :: B).length = j := by
    rw [List.length_append, List.length_cons] at hAB ⊢
    exact hAB
  have h2 : (A ++ v :: (B ++ v :: C)).set j u = (A ++ v :: B) ++ u :: C := by
    rw [show A ++ v :: (B ++ v :: C) = (A ++ v :: B) ++ v :: C by simp,
      ← hAB', set_len_append]
  rw [h1, h2]
  exact middle_swap_perm A B C u v

theorem swapL_perm_lt [Inhabited α] {l : List α} {i j : Nat} (hij : i < j)
    (hj : j < l.length) :
    ((l.set i (getL l j)).set j (getL l i)).Perm l := by
  rcases list_two_split l i j hij hj with ⟨A, B, C, u, v, hl, hA, hAB, hgi, hgj⟩
  rw [hgi, hgj]
  conv_lhs => rw [hl]
  conv_rhs => rw [hl]
  exact swap_decomp_perm A B C u v i j hA hAB

theorem set_getL_self [Inhabited α] (l : List α) (i : Nat) :
    l.set i (getL l i) = l := by
  induction l generalizing i with
  | nil => rfl
  | cons a l ih =>
    cases i with
    | zero => rfl
    | succ n =>
      show (a :: l).set (n + 1) (getL (a :: l) (n + 1)) = a :: l
      rw [List.set_cons_succ]
      have : getL (a :: l) (n + 1) = getL l n := by
        unfold getL
        rw [List.get?_cons_succ]
      rw [this, ih]

theorem swapL_perm [Inhabited α] (l : List α) (i j : Nat) :
    (swapL l i j).Perm l := by
  unfold swapL
  split
  · rename_i h
    rcases Nat.lt_trichotomy i j with hij | rfl | hji
    · exact swapL_perm_lt hij h.2
    · rw [List.set_set, set_getL_self]
    · rw [List.set_comm _ _ _ (Nat.ne_of_gt hji)]
      exact swapL_perm_lt hji h.1
  · exact List.Perm.refl l

theorem swapRangeGo_perm [Inhabited α] :
    ∀ (k : Nat) (l : List α) (a b : Nat), (swapRangeGo l a b k).Perm l := by
  intro k
  induction k with
  | zero => intro l a b; exact List.Perm.refl l
  | succ k ih =>
    intro l a b
    exact (ih _ _ _).trans (swapL_perm l a b)

theorem rotateLoop_perm [Inhabited α] (m : Nat) :
    ∀ (fuel i j : Nat) (l : List α), ((rotateLoop m fuel i j l).1).Perm l := by
  intro fuel
  induction fuel with
  | zero => intro i j l; exact List.Perm.refl l
  | succ fuel ih =>
    intro i j l
    rw [rotateLoop]
    split
    · split
      · exact (ih _ _ _).trans (swapRangeGo_perm _ _ _ _)
      · exact (ih _ _ _).trans (swapRangeGo_perm _ _ _ _)
    · exact List.Perm.refl l

theorem rotateGo_perm [Inhabited α] (l : List α) (a m b : Nat) :
    (rotateGo l a m b).Perm l := by
  unfold rotateGo
  rcases h : rotateLoop m (m - a + (b - m)) (m - a) (b - m) l with ⟨l1, i1⟩
  have := rotateLoop_perm m (m - a + (b - m)) (m - a) (b - m) l
  rw [h] at this
  exact (swapRangeGo_perm _ _ _ _).trans this

theorem swapFwd_perm [Inhabited α] :
    ∀ (c : Nat) (l : List α) (k : Nat), (swapFwd l k c).Perm l := by
  intro c
  induction c with
  | zero => intro l k; exact List.Perm.refl l
  | succ c ih => intro l k; exact (ih _ _).trans (swapL_perm _ _ _)

theorem swapBwd_perm [Inhabited α] :
    ∀ (c : Nat) (l : List α) (k : Nat), (swapBwd l k c).Perm l := by
  intro c
  induction c with
  | zero => intro l k; exact List.Perm.refl l
  | succ c ih => intro l k; exact (ih _ _).trans (swapL_perm _ _ _)

theorem insertInner_perm (less : α → α → Bool) [Inhabited α] (a : Nat) :
    ∀ (j : Nat) (l : List α), (insertInner less a l j).Perm l := by
  intro j
  induction j with
  | zero => intro l; exact List.Perm.refl l
  | succ j ih =>
    intro l
    rw [insertInner]
    split
    · exact (ih _).trans (swapL_perm l (j + 1) j)
    · exact List.Perm.refl l

theorem isortLoop_perm (less : α → α → Bool) [Inhabited α] (a : Nat) :
    ∀ (cnt i : Nat) (l : List α), (isortLoop less a cnt i l).Perm l := by
  intro cnt
  induction cnt with
  | zero => intro i l; exact List.Perm.refl l
  | succ cnt ih =>
    intro i l
    exact (ih _ _).trans (insertInner_perm less a i l)

theorem insertionSortGo_perm (less : α → α → Bool) [Inhabited α]
    (l : List α) (a b : Nat) : (insertionSortGo less l a b).Perm l :=
  isortLoop_perm less a _ _ l

theorem insBlocks_perm (less : α → α → Bool) [Inhabited α] (n : Nat) :
    ∀ (fuel a b : Nat) (l : List α), (insBlocks less n fuel a b l).Perm l := by
  intro fuel
  induction fuel with
  | zero => intro a b l; exact List.Perm.refl l
  | succ fuel ih =>
    intro a b l
    rw [insBlocks]
    split
    · exact (ih _ _ _).trans (insertionSortGo_perm less l _ _)
    · exact insertionSortGo_perm less l _ _

theorem symCore_perm [Inhabited α] (rec : List α → Nat → Nat → Nat → List α)
    (hrec : ∀ (l' : List α) (x y z : Nat), (rec l' x y z).Perm l')
    (l : List α) (a m b mid start en : Nat) :
    (symCore rec l a m b mid start en).Perm l := by
  unfold symCore
  show (if mid < en ∧ en < b then
      rec (if a < start ∧ start < mid then
             rec (if start < m ∧ m < en then rotateGo l start m en else l) a start mid
           else (if start < m ∧ m < en then rotateGo l start m en else l)) mid en b
    else (if a < start ∧ start < mid then
             rec (if start < m ∧ m < en then rotateGo l start m en else l) a start mid
           else (if start < m ∧ m < en then rotateGo l start m en else l))).Perm l
  have h1 : (if start < m ∧ m < en then rotateGo l start m en else l).Perm l := by
    split
    · exact rotateGo_perm l start m en
    · exact List.Perm.refl l
  have h2 : (if a < start ∧ start < mid then
      rec (if start < m ∧ m < en then rotateGo l start m en else l) a start mid
    else (if start < m ∧ m < en then rotateGo l start m en else l)).Perm l := by
    split
    · exact (hrec _ _ _ _).trans h1
    · exact h1
  split
  · exact (hrec _ _ _ _).trans h2
  · exact h2

theorem symMergeGo_perm (less : α → α → Bool) [Inhabited α] :
    ∀ (fuel : Nat) (l : List α) (a m b : Nat), (symMergeGo less fuel l a m b).Perm l := by
  intro fuel
  induction fuel with
  | zero => intro l a m b; exact List.Perm.refl l
  | succ fuel ih =>
    intro l a m b
    rw [symMergeGo]
    split
    · exact swapFwd_perm _ _ _
    · split
      · exact swapBwd_perm _ _ _
      · unfold symGeneral
        exact symCore_perm _ (fun l' x y z => ih l' x y z) l a m b _ _ _

theorem mergeRound_perm (less : α → α → Bool) [Inhabited α] (n bs : Nat) :
    ∀ (fuel a b : Nat) (l : List α), (mergeRound less n bs fuel a b l).Perm l := by
  intro fuel
  induction fuel with
  | zero => intro a b l; exact List.Perm.refl l
  | succ fuel ih =>
    intro a b l
    rw [mergeRound]
    split
    · exact (ih _ _ _).trans (symMergeGo_perm less _ l _ _ _)
    · split
      · exact symMergeGo_perm less _ l _ _ _
      · exact List.Perm.refl l

theorem mergeRounds_perm (less : α → α → Bool) [Inhabited α] (n : Nat) :
    ∀ (fuel bs : Nat) (l : List α), (mergeRounds less n fuel bs l).Perm l := by
  intro fuel
  induction fuel with
  | zero => intro bs l; exact List.Perm.refl l
  | succ fuel ih =>
    intro bs l
    rw [mergeRounds]
    split
    · exact (ih _ _).trans (mergeRound_perm less n bs _ _ _ l)
    · exact List.Perm.refl l

theorem goStableSort_perm (less : α → α → Bool) [Inhabited α] (l : List α) :
    (goStableSort less l).Perm l := by
  unfold goStableSort stableGo
  exact (mergeRounds_perm less _ _ _ _).trans (insBlocks_perm less _ _ _ _ l)

/-! ### Looking up callbacks -/

theorem getCb_skel_eq {a b : List Callback} (h : a.map skel = b.map skel)
    (i : Nat) : skel (getCb a i) = skel (getCb b i) := by
  have hg : (a.get? i).map skel = (b.get? i).map skel := by
    rw [← List.get?_map, ← List.get?_map, h]
  unfold getCb
  rcases ha : a.get? i with _ | ca <;> rcases hb : b.get? i with _ | cb <;>
    rw [ha, hb] at hg <;> simp at hg <;> simp [hg]

theorem getCb_mem {cs : List Callback} {i : Nat} (hi : i < cs.length) :
    getCb cs i ∈ cs := by
  rcases h : cs.get? i with _ | c
  · exact absurd (List.get?_eq_none.mp h) (by omega)
  · have : getCb cs i = c := by
      unfold getCb
      rw [h]
      rfl
    rw [this]
    exact List.get?_mem h

theorem names_get_getCb {cs : List Callback} {names : List String} {i : Nat}
    (hn : cs.map (·.name) = names) (hi : i < names.length) :
    names.get? i = some ((getCb cs i).name) := by
  subst hn
  rw [List.length_map] at hi
  rcases h : cs.get? i with _ | c0
  · exact absurd (List.get?_eq_none.mp h) (by omega)
  · have hc : getCb cs i = c0 := by
      unfold getCb
      rw [h]
      rfl
    rw [hc, List.get?_map, h]
    rfl

/-- The projection of a name list contained in `names` over a slice with
no tombstones: one handler per name, via last-occurrence lookup. -/
theorem project_eq_map (cs' cs1 : List Callback) (names : List String)
    (hskel : cs'.map skel = cs1.map skel)
    (hnames : names = cs1.map (·.name))
    (hnr : ∀ c ∈ cs1, c.remove = false) :
    ∀ sorted : List String, (∀ n ∈ sorted, n ∈ names) →
      project cs' names sorted =
        sorted.map (fun n => (getCb cs1 ((getRIndex names n).getD 0)).handler) := by
  intro sorted
  induction sorted with
  | nil => intro _; rfl
  | cons n rest ih =>
    intro hsub
    rcases getRIndex_isSome_of_mem (hsub n (List.mem_cons_self n rest)) with ⟨idx, hidx⟩
    have hlt : idx < names.length := getRIndex_lt_length hidx
    have hlt1 : idx < cs1.length := by
      rw [hnames, List.length_map] at hlt
      exact hlt
    have hmem1 : getCb cs1 idx ∈ cs1 := getCb_mem hlt1
    have hsk := getCb_skel_eq hskel idx
    have hrm : (getCb cs' idx).remove = false := by
      have h1 : (getCb cs' idx).remove = (getCb cs1 idx).remove :=
        congrArg (fun p => p.2.2.1) hsk
      rw [h1]
      exact hnr _ hmem1
    have hh : (getCb cs' idx).handler = (getCb cs1 idx).handler :=
      congrArg (fun p => p.2.1) hsk
    rw [project, hidx]
    dsimp only
    rw [hrm]
    simp only [Bool.false_eq_true, if_false]
    rw [ih (fun m hm => hsub m (List.mem_cons_of_mem n hm)), List.map_cons, hidx, hh]
    rfl

/-- Helper: a nodup name list looks up each of its members at the
element's own position, so the composite lookup recovers the callback's
own handler. -/
theorem lookup_handler_of_nodup {cs1 : List Callback} {names : List String}
    (hnames : names = cs1.map (·.name)) (hnd : names.Nodup) :
    ∀ c ∈ cs1,
      (getCb cs1 ((getRIndex names c.name).getD 0)).handler = c.handler := by
  intro c hc
  rcases List.get?_of_mem hc with ⟨i, hget⟩
  subst hnames
  rcases getRIndex_names_self hnd hget with ⟨h1, h2⟩
  rw [h1]
  simp [h2]

/-- Central compilation-shape result: when `sortCallbacks` returns
without error, the `sorted` name list is a permutation of the distinct
candidate names, and with pairwise-distinct names the compiled function
list is a permutation of the candidate handlers. -/
theorem sortCallbacksF_perm (fuel : Nat) (cs0 : List Callback)
    (herr : (sortCallbacksF fuel cs0).err = none)
    (hnr : ∀ c ∈ cs0, c.remove = false) :
    (sortCallbacksF fuel cs0).sorted.Perm ((cs0.map (·.name)).dedup) ∧
    ((cs0.map (·.name)).Nodup →
      (sortCallbacksF fuel cs0).fns.Perm (cs0.map (·.handler))) := by
  have hskel0 := sortCallbacksF_cs_skel fuel cs0
  have hperm : (goStableSort goLess cs0).Perm cs0 := goStableSort_perm _ _
  have hpermn : ((goStableSort goLess cs0).map (·.name)).Perm (cs0.map (·.name)) :=
    hperm.map _
  have hnw : (buildNamesWarns (goStableSort goLess cs0)).1 =
      (goStableSort goLess cs0).map (·.name) := buildNamesWarns_fst _
  unfold sortCallbacksF at herr hskel0 ⊢
  dsimp only at herr hskel0 ⊢
  rw [hnw] at herr hskel0 ⊢
  rcases hL : sortLoop fuel ((goStableSort goLess cs0).map (·.name))
      ⟨goStableSort goLess cs0, []⟩
      (List.range (goStableSort goLess cs0).length) with ⟨st, e⟩
  rw [hL] at herr hskel0 ⊢
  rcases e with _ | e
  case some => cases herr
  dsimp only at herr hskel0 ⊢
  have hlen : ((goStableSort goLess cs0).map (·.name)).length =
      (goStableSort goLess cs0).length := List.length_map _ _
  rcases sortLoop_inv fuel ((goStableSort goLess cs0).map (·.name))
      (List.range (goStableSort goLess cs0).length)
      ⟨goStableSort goLess cs0, []⟩ st none hL rfl
      (fun i hi => by rw [hlen]; exact List.mem_range.mp hi) with ⟨_, hb, hcn, hd⟩
  have hnodup : st.sorted.Nodup := hb List.nodup_nil
  have hsub : ∀ n ∈ st.sorted, n ∈ (goStableSort goLess cs0).map (·.name) := by
    intro n hn
    rcases hcn n hn with h | h
    · cases h
    · exact h
  have hall : ∀ n ∈ (goStableSort goLess cs0).map (·.name), n ∈ st.sorted := by
    intro n hn
    rcases List.get?_of_mem hn with ⟨i, hget⟩
    have hi : i < ((goStableSort goLess cs0).map (·.name)).length := by
      rcases List.get?_eq_some.mp hget with ⟨h, _⟩
      exact h
    have := hd rfl i (List.mem_range.mpr (by rw [← hlen]; exact hi))
    have hname := names_get_getCb
      (show (goStableSort goLess cs0).map (·.name) = (goStableSort goLess cs0).map (·.name)
        from rfl) hi
    rw [hget] at hname
    injection hname with hname
    dsimp only at this
    rw [← hname] at this
    exact this
  have hmemiff : ∀ n, n ∈ st.sorted ↔ n ∈ (cs0.map (·.name)) := by
    intro n
    constructor
    · intro h
      exact hpermn.mem_iff.mp (hsub n h)
    · intro h
      exact hall n (hpermn.mem_iff.mpr h)
  have hpart1 : st.sorted.Perm ((cs0.map (·.name)).dedup) := by
    refine (List.perm_ext_iff_of_nodup hnodup (List.nodup_dedup _)).mpr ?_
    intro a
    rw [List.mem_dedup]
    exact hmemiff a
  refine ⟨hpart1, fun hnd0 => ?_⟩
  have hnd1 : ((goStableSort goLess cs0).map (·.name)).Nodup :=
    hpermn.nodup_iff.mpr hnd0
  have hnr1 : ∀ c ∈ goStableSort goLess cs0, c.remove = false := fun c hc =>
    hnr c (hperm.mem_iff.mp hc)
  rw [project_eq_map st.cs (goStableSort goLess cs0) _ hskel0 rfl hnr1 st.sorted hsub]
  have hsp : st.sorted.Perm ((goStableSort goLess cs0).map (·.name)) := by
    refine hpart1.trans ?_
    rw [List.dedup_eq_self.mpr hnd0]
    exact hpermn.symm
  refine (hsp.map _).trans ?_
  rw [List.map_map]
  have hfix : (goStableSort goLess cs0).map
      ((fun n => (getCb (goStableSort goLess cs0) ((getRIndex
        ((goStableSort goLess cs0).map (·.name)) n).getD 0)).handler) ∘ (·.name)) =
      (goStableSort goLess cs0).map (·.handler) := by
    refine List.map_congr_left ?_
    intro c hc
    exact lookup_handler_of_nodup rfl hnd1 c hc
  rw [hfix]
  exact hperm.map _

/-! ### Wildcard-anchor analysis (for sets whose only constraints are
`before = "*"` / `after = "*"`) -/

/-- Test for `c.before == "*"`. -/
def wildBefore (c : Callback) : Bool := decide (c.before = "*")

/-- Test for `c.after == "*"`. -/
def wildAfter (c : Callback) : Bool := decide (c.after = "*")

/-- neither wildcard. -/
def isNcb (c : Callback) : Bool := !wildBefore c && !wildAfter c

/-- unconstrained step. -/
def clsN (c : Callback) : Prop := c.before = "" ∧ c.after = ""

/-- run-first step. -/
def clsB (c : Callback) : Prop := c.before = "*" ∧ c.after = ""

/-- run-last step. -/
def clsA (c : Callback) : Prop := c.before = "" ∧ c.after = "*"

theorem goLess_of_clsN {x : Callback} (hx : clsN x) (y : Callback) :
    goLess x y = (wildBefore y || wildAfter y) := by
  rcases hx with ⟨h1, h2⟩
  unfold goLess wildBefore wildAfter
  by_cases hyb : y.before = "*" <;> by_cases hya : y.after = "*" <;>
    simp [hyb, hya, h1, h2]

theorem goLess_of_clsB {x : Callback} (hx : clsB x) (y : Callback) :
    goLess x y = wildAfter y := by
  rcases hx with ⟨h1, h2⟩
  unfold goLess wildAfter
  by_cases hyb : y.before = "*" <;> by_cases hya : y.after = "*" <;>
    simp [hyb, hya, h1, h2]

theorem goLess_of_clsA {x : Callback} (hx : clsA x) (y : Callback) :
    goLess x y = wildBefore y := by
  rcases hx with ⟨h1, h2⟩
  unfold goLess wildBefore
  by_cases hyb : y.before = "*" <;> by_cases hya : y.after = "*" <;>
    simp [hyb, hya, h1, h2]

theorem clsB_wild {c : Callback} (h : clsB c) :
    wildBefore c = true ∧ wildAfter c = false ∧ isNcb c = false := by
  rcases h with ⟨h1, h2⟩
  simp [wildBefore, wildAfter, isNcb, h1, h2]

theorem clsA_wild {c : Callback} (h : clsA c) :
    wildBefore c = false ∧ wildAfter c = true ∧ isNcb c = false := by
  rcases h with ⟨h1, h2⟩
  simp [wildBefore, wildAfter, isNcb, h1, h2]

theorem clsN_wild {c : Callback} (h : clsN c) :
    wildBefore c = false ∧ wildAfter c = false ∧ isNcb c = true := by
  rcases h with ⟨h1, h2⟩
  simp [wildBefore, wildAfter, isNcb, h1, h2]

/-- A plain step bubbles to the left of every wildcard step and stops at
the first plain step: in the reversed prefix `rm ++ rn` (wildcards
`rm`, then plains `rn`), it lands between them. -/
theorem bubble_clsN {x : Callback} (hx : clsN x) :
    ∀ (rm rn : List Callback), (∀ y ∈ rm, clsB y ∨ clsA y) → (∀ y ∈ rn, clsN y) →
      bubble goLess x (rm ++ rn) = rm ++ x :: rn := by
  intro rm
  induction rm with
  | nil =>
    intro rn _ hrn
    rcases rn with _ | ⟨z, zs⟩
    · rfl
    · rw [List.nil_append, bubble]
      have hz : clsN z := hrn z (List.mem_cons_self z zs)
      rw [goLess_of_clsN hx, (clsN_wild hz).1, (clsN_wild hz).2.1]
      simp
  | cons y rm' ih =>
    intro rn hrm hrn
    rw [List.cons_append, bubble]
    have hy : clsB y ∨ clsA y := hrm y (List.mem_cons_self y rm')
    have hless : goLess x y = true := by
      rw [goLess_of_clsN hx]
      rcases hy with hy | hy
      · rw [(clsB_wild hy).1]
        simp
      · rw [(clsA_wild hy).2.1]
        simp
    rw [hless]
    simp only [if_true]
    rw [ih rn (fun z hz => hrm z (List.mem_cons_of_mem y hz)) hrn, List.cons_append]

/-- A `before="*"` step bubbles left past `after="*"` steps only: it
stays inside the wildcard block, adding itself to the head of the
block's `before="*"` sub-sequence. -/
theorem bubble_clsB {x : Callback} (hx : clsB x) :
    ∀ (rm rn : List Callback), (∀ y ∈ rm, clsB y ∨ clsA y) → (∀ y ∈ rn, clsN y) →
      ∃ rm', bubble goLess x (rm ++ rn) = rm' ++ rn ∧
        (∀ y ∈ rm', y = x ∨ y ∈ rm) ∧
        rm'.filter wildBefore = x :: rm.filter wildBefore ∧
        rm'.filter wildAfter = rm.filter wildAfter := by
  intro rm
  induction rm with
  | nil =>
    intro rn _ hrn
    have hres : bubble goLess x rn = x :: rn := by
      rcases rn with _ | ⟨z, zs⟩
      · rfl
      · rw [bubble]
        have hz : clsN z := hrn z (List.mem_cons_self z zs)
        rw [goLess_of_clsB hx, (clsN_wild hz).2.1]
        simp
    refine ⟨[x], by simpa using hres, ?_, ?_, ?_⟩
    · intro y hy
      rw [List.mem_singleton] at hy
      exact Or.inl hy
    · simp [List.filter, (clsB_wild hx).1]
    · simp [List.filter, (clsB_wild hx).2.1]
  | cons y rm' ih =>
    intro rn hrm hrn
    rw [List.cons_append, bubble]
    have hy : clsB y ∨ clsA y := hrm y (List.mem_cons_self y rm')
    rcases hy with hy | hy
    · -- y is before="*": stop here
      rw [goLess_of_clsB hx, (clsB_wild hy).2.1]
      simp only [Bool.false_eq_true, if_false]
      refine ⟨x :: y :: rm', rfl, ?_, ?_, ?_⟩
      · intro z hz
        rcases List.mem_cons.mp hz with rfl | hz
        · exact Or.inl rfl
        · exact Or.inr hz
      · simp [List.filter, (clsB_wild hx).1]
      · simp [List.filter, (clsB_wild hx).2.1, (clsB_wild hy).2.1]
    · -- y is after="*": keep bubbling
      rw [goLess_of_clsB hx, (clsA_wild hy).2.1]
      simp only [if_true]
      rcases ih rn (fun z hz => hrm z (List.mem_cons_of_mem y hz)) hrn with
        ⟨rm2, heq, hmem, hfB, hfA⟩
      refine ⟨y :: rm2, by rw [heq, List.cons_append], ?_, ?_, ?_⟩
      · intro z hz
        rcases List.mem_cons.mp hz with rfl | hz
        · exact Or.inr (List.mem_cons_self z rm')
        · rcases hmem z hz with h | h
          · exact Or.inl h
          · exact Or.inr (List.mem_cons_of_mem y h)
      · simp only [List.filter, (clsA_wild hy).1]
        rw [hfB]
      · simp only [List.filter, (clsA_wild hy).2.1]
        rw [hfA]

/-- Symmetric: an `after="*"` step bubbles past `before="*"` steps only,
appending itself to the block's `after="*"` sub-sequence. -/
theorem bubble_clsA {x : Callback} (hx : clsA x) :
    ∀ (rm rn : List Callback), (∀ y ∈ rm, clsB y ∨ clsA y) → (∀ y ∈ rn, clsN y) →
      ∃ rm', bubble goLess x (rm ++ rn) = rm' ++ rn ∧
        (∀ y ∈ rm', y = x ∨ y ∈ rm) ∧
        rm'.filter wildBefore = rm.filter wildBefore ∧
        rm'.filter wildAfter = x :: rm.filter wildAfter := by
  intro rm
  induction rm with
  | nil =>
    intro rn _ hrn
    have hres : bubble goLess x rn = x :: rn := by
      rcases rn with _ | ⟨z, zs⟩
      · rfl
      · rw [bubble]
        have hz : clsN z := hrn z (List.mem_cons_self z zs)
        rw [goLess_of_clsA hx, (clsN_wild hz).1]
        simp
    refine ⟨[x], by simpa using hres, ?_, ?_, ?_⟩
    · intro y hy
      rw [List.mem_singleton] at hy
      exact Or.inl hy
    · simp [List.filter, (clsA_wild hx).1]
    · simp [List.filter, (clsA_wild hx).2.1]
  | cons y rm' ih =>
    intro rn hrm hrn
    rw [List.cons_append, bubble]
    have hy : clsB y ∨ clsA y := hrm y (List.mem_cons_self y rm')
    rcases hy with hy | hy
    · -- y is before="*": keep bubbling
      rw [goLess_of_clsA hx, (clsB_wild hy).1]
      simp only [if_true]
      rcases ih rn (fun z hz => hrm z (List.mem_cons_of_mem y hz)) hrn with
        ⟨rm2, heq, hmem, hfB, hfA⟩
      refine ⟨y :: rm2, by rw [heq, List.cons_append], ?_, ?_, ?_⟩
      · intro z hz
        rcases List.mem_cons.mp hz with rfl | hz
        · exact Or.inr (List.mem_cons_self z rm')
        · rcases hmem z hz with h | h
          · exact Or.inl h
          · exact Or.inr (List.mem_cons_of_mem y h)
      · simp only [List.filter, (clsB_wild hy).1]
        rw [hfB]
      · simp only [List.filter, (clsB_wild hy).2.1]
        rw [hfA]
    · -- y is after="*": stop here
      rw [goLess_of_clsA hx, (clsA_wild hy).1]
      simp only [Bool.false_eq_true, if_false]
      refine ⟨x :: y :: rm', rfl, ?_, ?_, ?_⟩
      · intro z hz
        rcases List.mem_cons.mp hz with rfl | hz
        · exact Or.inl rfl
        · exact Or.inr hz
      · simp [List.filter, (clsA_wild hx).1]
      · simp [List.filter, (clsA_wild hx).2.1, (clsA_wild hy).2.1]

/-- The whole insertion-sort pass on a wildcard-only list: plain steps
first (in order), then the wildcard block, with each wildcard class
kept in registration order inside the block. -/
theorem foldl_bubble_wild :
    ∀ (l : List Callback) (rm rn : List Callback),
      (∀ c ∈ l, clsN c ∨ clsB c ∨ clsA c) →
      (∀ y ∈ rm, clsB y ∨ clsA y) → (∀ y ∈ rn, clsN y) →
      ∃ rm' rn',
        l.foldl (fun racc x => bubble goLess x racc) (rm ++ rn) = rm' ++ rn' ∧
        rn' = (l.filter isNcb).reverse ++ rn ∧
        rm'.filter wildBefore = (l.filter wildBefore).reverse ++ rm.filter wildBefore ∧
        rm'.filter wildAfter = (l.filter wildAfter).reverse ++ rm.filter wildAfter ∧
        (∀ y ∈ rm', y ∈ l ∨ y ∈ rm) ∧ (∀ y ∈ rm', clsB y ∨ clsA y) := by
  intro l
  induction l with
  | nil =>
    intro rm rn _ hrm hrn
    exact ⟨rm, rn, rfl, by simp, by simp, by simp, fun y hy => Or.inr hy, hrm⟩
  | cons x l' ih =>
    intro rm rn hW hrm hrn
    rw [List.foldl_cons]
    rcases hW x (List.mem_cons_self x l') with hx | hx | hx
    · -- plain step: lands between the wildcard block and the plains
      rw [bubble_clsN hx rm rn hrm hrn]
      have hxrn : ∀ y ∈ x :: rn, clsN y := by
        intro y hy
        rcases List.mem_cons.mp hy with rfl | hy
        · exact hx
        · exact hrn y hy
      rcases ih rm (x :: rn) (fun c hc => hW c (List.mem_cons_of_mem x hc)) hrm hxrn with
        ⟨rm', rn', heq, hrn', hfB, hfA, hmem, hcls⟩
      refine ⟨rm', rn', heq, ?_, ?_, ?_, ?_, hcls⟩
      · rw [hrn']
        simp [List.filter, (clsN_wild hx).2.2]
      · rw [hfB]
        simp [List.filter, (clsN_wild hx).1]
      · rw [hfA]
        simp [List.filter, (clsN_wild hx).2.1]
      · intro y hy
        rcases hmem y hy with h | h
        · exact Or.inl (List.mem_cons_of_mem x h)
        · exact Or.inr h
    · -- before="*" step: joins the wildcard block
      rcases bubble_clsB hx rm rn hrm hrn with ⟨rm2, heq2, hmem2, hfB2, hfA2⟩
      rw [heq2]
      have hrm2 : ∀ y ∈ rm2, clsB y ∨ clsA y := by
        intro y hy
        rcases hmem2 y hy with rfl | hy
        · exact Or.inl hx
        · exact hrm y hy
      rcases ih rm2 rn (fun c hc => hW c (List.mem_cons_of_mem x hc)) hrm2 hrn with
        ⟨rm', rn', heq, hrn', hfB, hfA, hmem, hcls⟩
      refine ⟨rm', rn', heq, ?_, ?_, ?_, ?_, hcls⟩
      · rw [hrn']
        simp [List.filter, (clsB_wild hx).2.2]
      · rw [hfB, hfB2]
        simp [List.filter, (clsB_wild hx).1]
      · rw [hfA, hfA2]
        simp [List.filter, (clsB_wild hx).2.1]
      · intro y hy
        rcases hmem y hy with h | h
        · exact Or.inl (List.mem_cons_of_mem x h)
        · rcases hmem2 y h with rfl | h
          · exact Or.inl (List.mem_cons_self y l')
          · exact Or.inr h
    · -- after="*" step: joins the wildcard block
      rcases bubble_clsA hx rm rn hrm hrn with ⟨rm2, heq2, hmem2, hfB2, hfA2⟩
      rw [heq2]
      have hrm2 : ∀ y ∈ rm2, clsB y ∨ clsA y := by
        intro y hy
        rcases hmem2 y hy with rfl | hy
        · exact Or.inr hx
        · exact hrm y hy
      rcases ih rm2 rn (fun c hc => hW c (List.mem_cons_of_mem x hc)) hrm2 hrn with
        ⟨rm', rn', heq, hrn', hfB, hfA, hmem, hcls⟩
      refine ⟨rm', rn', heq, ?_, ?_, ?_, ?_, hcls⟩
      · rw [hrn']
        simp [List.filter, (clsA_wild hx).2.2]
      · rw [hfB, hfB2]
        simp [List.filter, (clsA_wild hx).1]
      · rw [hfA, hfA2]
        simp [List.filter, (clsA_wild hx).2.1]
      · intro y hy
        rcases hmem y hy with h | h
        · exact Or.inl (List.mem_cons_of_mem x h)
        · rcases hmem2 y h with rfl | h
          · exact Or.inl (List.mem_cons_self y l')
          · exact Or.inr h

/-- The insertion-sort pass on a wildcard-only candidate list: plain
steps first (registration order), then one block holding all wildcard
steps, each wildcard class in registration order. -/
theorem insertionSortList_wild (cs0 : List Callback)
    (hW : ∀ c ∈ cs0, clsN c ∨ clsB c ∨ clsA c) :
    ∃ mix, insertionSortList goLess cs0 = cs0.filter isNcb ++ mix ∧
      mix.filter wildBefore = cs0.filter wildBefore ∧
      mix.filter wildAfter = cs0.filter wildAfter ∧
      (∀ y ∈ mix, (clsB y ∨ clsA y) ∧ y ∈ cs0) := by
  rcases foldl_bubble_wild cs0 [] [] hW (by simp) (by simp) with
    ⟨rm', rn', heq, hrn', hfB, hfA, hmem, hcls⟩
  rw [List.append_nil] at heq
  refine ⟨rm'.reverse, ?_, ?_, ?_, ?_⟩
  · unfold insertionSortList
    rw [heq, List.reverse_append, hrn']
    simp
  · rw [List.filter_reverse, hfB]
    simp
  · rw [List.filter_reverse, hfA]
    simp
  · intro y hy
    rw [List.mem_reverse] at hy
    refine ⟨hcls y hy, ?_⟩
    rcases hmem y hy with h | h
    · exact h
    · cases h

/-! ### Per-step evaluation lemmas for unconstrained / wildcard-only steps -/

theorem stepBefore_empty (names : List String) (st : SortState) (i : Nat)
    (h : (getCb st.cs i).before = "") : stepBefore names st i = (st, none) := by
  unfold stepBefore
  dsimp only
  rw [if_pos h]

theorem stepAfter_empty (rec : SortState → Nat → SortState × Option String)
    (names : List String) (st : SortState) (i : Nat)
    (h : (getCb st.cs i).after = "") : stepAfter rec names st i = (st, none) := by
  unfold stepAfter
  dsimp only
  rw [if_pos h]

theorem finalAppend_notMem (st : SortState) (i : Nat)
    (h : (getCb st.cs i).name ∉ st.sorted) :
    finalAppend st i = ⟨st.cs, st.sorted ++ [(getCb st.cs i).name]⟩ := by
  unfold finalAppend
  dsimp only
  rw [getRIndex_eq_none.mpr h]

theorem finalAppend_mem (st : SortState) (i : Nat)
    (h : (getCb st.cs i).name ∈ st.sorted) : finalAppend st i = st := by
  rcases getRIndex_isSome_of_mem h with ⟨j, hj⟩
  unfold finalAppend
  dsimp only
  rw [hj]

/-- Resolving a step with neither constraint appends its name. -/
theorem step_plain (fuel : Nat) (names : List String) (st : SortState) (i : Nat)
    (hb : (getCb st.cs i).before = "") (ha : (getCb st.cs i).after = "")
    (hnm : (getCb st.cs i).name ∉ st.sorted) :
    sortCallbackF (fuel + 1) names st i =
      (⟨st.cs, st.sorted ++ [(getCb st.cs i).name]⟩, none) := by
  rw [sortCallbackF, stepBefore_empty names st i hb]
  dsimp only
  rw [stepAfter_empty _ names st i ha]
  dsimp only
  rw [finalAppend_notMem st i hnm]

/-- Resolving a `before="*"` step (with no after-constraint) prepends
its name: note that this puts later `before="*"` registrations in
front of earlier ones. -/
theorem step_wildB (fuel : Nat) (names : List String) (st : SortState) (i : Nat)
    (hb : (getCb st.cs i).before = "*") (ha : (getCb st.cs i).after = "")
    (hnm : (getCb st.cs i).name ∉ st.sorted)
    (hstar : getRIndex names "*" = none) :
    sortCallbackF (fuel + 1) names st i =
      (⟨st.cs, (getCb st.cs i).name :: st.sorted⟩, none) := by
  have hne : (getCb st.cs i).before ≠ "" := by
    rw [hb]
    decide
  rcases hsort : st.sorted with _ | ⟨s, ss⟩
  · have hsb : stepBefore names st i = (st, none) := by
      unfold stepBefore
      dsimp only
      rw [if_neg hne, if_neg (by simp [hsort]), hsort]
      dsimp only [getRIndex]
      rw [hb, hstar]
    rw [sortCallbackF, hsb]
    dsimp only
    rw [stepAfter_empty _ names st i ha]
    dsimp only
    rw [finalAppend_notMem st i hnm]
    rw [hsort]
    rfl
  · have hsb : stepBefore names st i =
        ({ st with sorted := (getCb st.cs i).name :: st.sorted }, none) := by
      unfold stepBefore
      dsimp only
      rw [if_neg hne, if_pos ⟨hb, by rw [hsort]; exact List.cons_ne_nil s ss⟩,
        getRIndex_eq_none.mpr hnm]
    rw [sortCallbackF, hsb]
    dsimp only
    have hcs : ({ st with sorted := (getCb st.cs i).name :: st.sorted } : SortState).cs
        = st.cs := rfl
    rw [stepAfter_empty _ names _ i (by rw [hcs]; exact ha)]
    dsimp only
    rw [finalAppend_mem _ i (by rw [hcs]; exact List.mem_cons_self _ _), hsort]

/-- Resolving an `after="*"` step (with no before-constraint) appends
its name at the end, preserving registration order among such steps. -/
theorem step_wildA (fuel : Nat) (names : List String) (st : SortState) (i : Nat)
    (hb : (getCb st.cs i).before = "") (ha : (getCb st.cs i).after = "*")
    (hnm : (getCb st.cs i).name ∉ st.sorted)
    (hstar : getRIndex names "*" = none) :
    sortCallbackF (fuel + 1) names st i =
      (⟨st.cs, st.sorted ++ [(getCb st.cs i).name]⟩, none) := by
  have hne : (getCb st.cs i).after ≠ "" := by
    rw [ha]
    decide
  rw [sortCallbackF, stepBefore_empty names st i hb]
  dsimp only
  rcases hsort : st.sorted with _ | ⟨s, ss⟩
  · have hsa : stepAfter (sortCallbackF fuel names) names st i = (st, none) := by
      unfold stepAfter
      dsimp only
      rw [if_neg hne, if_neg (by simp [hsort]), hsort]
      dsimp only [getRIndex]
      rw [ha, hstar]
    rw [hsa]
    dsimp only
    rw [finalAppend_notMem st i hnm, hsort]
  · have hsa : stepAfter (sortCallbackF fuel names) names st i =
        ({ st with sorted := st.sorted ++ [(getCb st.cs i).name] }, none) := by
      unfold stepAfter
      dsimp only
      rw [if_neg hne, if_pos ⟨ha, by rw [hsort]; exact List.cons_ne_nil s ss⟩,
        getRIndex_eq_none.mpr hnm]
    rw [hsa]
    dsimp only
    rw [finalAppend_mem _ i (by
      show (getCb st.cs i).name ∈ st.sorted ++ [(getCb st.cs i).name]
      exact List.mem_append_right _ (List.mem_singleton.mpr rfl)), hsort]

/-! ### Loop lemmas -/

theorem sortLoop_append (fuel : Nat) (names : List String) :
    ∀ (is1 is2 : List Nat) (st : SortState),
      sortLoop fuel names st (is1 ++ is2) =
        match sortLoop fuel names st is1 with
        | (st', none) => sortLoop fuel names st' is2
        | (st', some e) => (st', some e) := by
  intro is1
  induction is1 with
  | nil => intro is2 st; rfl
  | cons i is1 ih =>
    intro is2 st
    rw [List.cons_append, sortLoop, sortLoop]
    rcases h : sortCallbackF fuel names st i with ⟨st', e⟩
    rcases e with _ | e
    · dsimp only
      exact ih is2 st'
    · rfl

/-- Processing a batch of unconstrained steps appends their names in
order. -/
theorem sortLoop_plain (fuel : Nat) (names : List String) :
    ∀ (idxs : List Nat) (st : SortState),
      (∀ i ∈ idxs, clsN (getCb st.cs i)) →
      (idxs.map (fun i => (getCb st.cs i).name)).Nodup →
      (∀ i ∈ idxs, (getCb st.cs i).name ∉ st.sorted) →
      sortLoop (fuel + 1) names st idxs =
        (⟨st.cs, st.sorted ++ idxs.map (fun i => (getCb st.cs i).name)⟩, none) := by
  intro idxs
  induction idxs with
  | nil =>
    intro st _ _ _
    rw [sortLoop]
    rcases st with ⟨cs, sorted⟩
    simp
  | cons i rest ih =>
    intro st hcls hnd hnm
    rw [sortLoop]
    have hci : clsN (getCb st.cs i) := hcls i (List.mem_cons_self i rest)
    rw [step_plain fuel names st i hci.1 hci.2 (hnm i (List.mem_cons_self i rest))]
    dsimp only
    have hnd' := hnd
    rw [List.map_cons, List.nodup_cons] at hnd'
    rw [ih ⟨st.cs, st.sorted ++ [(getCb st.cs i).name]⟩ (fun j hj =>
        hcls j (List.mem_cons_of_mem i hj))
      (by exact hnd'.2)
      (fun j hj => by
        simp only [List.mem_append, List.mem_singleton]
        rintro (h | h)
        · exact hnm j (List.mem_cons_of_mem i hj) h
        · exact hnd'.1 (h ▸ List.mem_map_of_mem (fun k => (getCb st.cs k).name) hj))]
    rw [List.append_assoc]
    rfl

/-- Processing a batch of wildcard steps: each `before="*"` step
prepends itself (reversing their relative order), each `after="*"` step
appends itself (preserving their relative order). -/
theorem sortLoop_wild (fuel : Nat) (names : List String)
    (hstar : getRIndex names "*" = none) :
    ∀ (idxs : List Nat) (st : SortState),
      (∀ i ∈ idxs, clsB (getCb st.cs i) ∨ clsA (getCb st.cs i)) →
      (idxs.map (fun i => (getCb st.cs i).name)).Nodup →
      (∀ i ∈ idxs, (getCb st.cs i).name ∉ st.sorted) →
      sortLoop (fuel + 1) names st idxs =
        (⟨st.cs,
          ((idxs.filter (fun i => wildBefore (getCb st.cs i))).map
              (fun i => (getCb st.cs i).name)).reverse ++
            st.sorted ++
            (idxs.filter (fun i => wildAfter (getCb st.cs i))).map
              (fun i => (getCb st.cs i).name)⟩, none) := by
  intro idxs
  induction idxs with
  | nil =>
    intro st _ _ _
    rw [sortLoop]
    rcases st with ⟨cs, sorted⟩
    simp
  | cons i rest ih =>
    intro st hcls hnd hnm
    rw [sortLoop]
    have hnd' := hnd
    rw [List.map_cons, List.nodup_cons] at hnd'
    have hrest : ∀ st' : SortState, st'.cs = st.cs →
        (∀ j ∈ rest, (getCb st.cs j).name ∉ st'.sorted) →
        sortLoop (fuel + 1) names st' rest =
          (⟨st.cs,
            ((rest.filter (fun j => wildBefore (getCb st.cs j))).map
                (fun j => (getCb st.cs j).name)).reverse ++
              st'.sorted ++
              (rest.filter (fun j => wildAfter (getCb st.cs j))).map
                (fun j => (getCb st.cs j).name)⟩, none) := by
      intro st' hcs hmem
      have := ih st' (by rw [hcs]; exact fun j hj => hcls j (List.mem_cons_of_mem i hj))
        (by rw [hcs]; exact hnd'.2) (by rw [hcs]; exact hmem)
      rw [hcs] at this
      exact this
    rcases hcls i (List.mem_cons_self i rest) with hci | hci
    · -- before="*": prepend
      rw [step_wildB fuel names st i hci.1 hci.2 (hnm i (List.mem_cons_self i rest)) hstar]
      dsimp only
      rw [hrest ⟨st.cs, (getCb st.cs i).name :: st.sorted⟩ rfl
        (fun j hj => by
          simp only [List.mem_cons]
          rintro (h | h)
          · exact hnd'.1 (h ▸ List.mem_map_of_mem (fun k => (getCb st.cs k).name) hj)
          · exact hnm j (List.mem_cons_of_mem i hj) h)]
      have hfB : (i :: rest).filter (fun j => wildBefore (getCb st.cs j)) =
          i :: rest.filter (fun j => wildBefore (getCb st.cs j)) := by
        simp [List.filter, (clsB_wild hci).1]
      have hfA : (i :: rest).filter (fun j => wildAfter (getCb st.cs j)) =
          rest.filter (fun j => wildAfter (getCb st.cs j)) := by
        simp [List.filter, (clsB_wild hci).2.1]
      rw [hfB, hfA]
      simp only [List.map_cons, List.reverse_cons, List.append_assoc,
        List.singleton_append, List.cons_append, List.nil_append]
    · -- after="*": append
      rw [step_wildA fuel names st i hci.1 hci.2 (hnm i (List.mem_cons_self i rest)) hstar]
      dsimp only
      rw [hrest ⟨st.cs, st.sorted ++ [(getCb st.cs i).name]⟩ rfl
        (fun j hj => by
          simp only [List.mem_append, List.mem_singleton]
          rintro (h | h)
          · exact hnm j (List.mem_cons_of_mem i hj) h
          · exact hnd'.1 (h ▸ List.mem_map_of_mem (fun k => (getCb st.cs k).name) hj))]
      have hfB : (i :: rest).filter (fun j => wildBefore (getCb st.cs j)) =
          rest.filter (fun j => wildBefore (getCb st.cs j)) := by
        simp [List.filter, (clsA_wild hci).1]
      have hfA : (i :: rest).filter (fun j => wildAfter (getCb st.cs j)) =
          i :: rest.filter (fun j => wildAfter (getCb st.cs j)) := by
        simp [List.filter, (clsA_wild hci).2.1]
      rw [hfB, hfA, List.map_cons]
      simp only [List.append_assoc, List.singleton_append]

/-! ### Index bookkeeping -/

theorem getCb_append_left {l1 l2 : List Callback} {i : Nat} (h : i < l1.length) :
    getCb (l1 ++ l2) i = getCb l1 i := by
  unfold getCb
  rw [List.get?_append h]

theorem getCb_append_right (l1 l2 : List Callback) (j : Nat) :
    getCb (l1 ++ l2) (l1.length + j) = getCb l2 j := by
  unfold getCb
  rw [List.get?_append_right (by omega)]
  have h : l1.length + j - l1.length = j := by omega
  rw [h]

theorem getCb_cons_succ (c : Callback) (l : List Callback) (j : Nat) :
    getCb (c :: l) (j + 1) = getCb l j := rfl

theorem map_getCb_range :
    ∀ l : List Callback, (List.range l.length).map (getCb l) = l := by
  intro l
  induction l with
  | nil => rfl
  | cons c l ih =>
    rw [List.length_cons, List.range_succ_eq_map, List.map_cons, List.map_map]
    have h0 : getCb (c :: l) 0 = c := rfl
    rw [h0]
    have hcomp : getCb (c :: l) ∘ Nat.succ = getCb l := by
      funext j
      rfl
    rw [hcomp, ih]

theorem range_filter_map_getCb (p : Callback → Bool) (f : Callback → α) :
    ∀ l : List Callback,
      ((List.range l.length).filter (fun j => p (getCb l j))).map
          (fun j => f (getCb l j)) = (l.filter p).map f := by
  intro l
  induction l with
  | nil => rfl
  | cons c l ih =>
    rw [List.length_cons, List.range_succ_eq_map]
    have h0 : getCb (c :: l) 0 = c := rfl
    rcases hp : p c with _ | _
    · rw [List.filter_cons_of_neg (by rw [h0]; exact (by simp [hp]))]
      have hcomm : ((List.range l.length).map Nat.succ).filter
            (fun j => p (getCb (c :: l) j)) =
          ((List.range l.length).filter (fun j => p (getCb l j))).map Nat.succ := by
        rw [List.map_filter]
        rfl
      rw [hcomm, List.map_map]
      have : (fun j => f (getCb (c :: l) j)) ∘ Nat.succ = fun j => f (getCb l j) := by
        funext j
        rfl
      rw [this, ih, List.filter_cons_of_neg (by simp [hp])]
    · rw [List.filter_cons_of_pos (by rw [h0]; exact (by simp [hp]))]
      have hcomm : ((List.range l.length).map Nat.succ).filter
            (fun j => p (getCb (c :: l) j)) =
          ((List.range l.length).filter (fun j => p (getCb l j))).map Nat.succ := by
        rw [List.map_filter]
        rfl
      rw [List.map_cons, hcomm, List.map_map]
      have : (fun j => f (getCb (c :: l) j)) ∘ Nat.succ = fun j => f (getCb l j) := by
        funext j
        rfl
      rw [this, ih, List.filter_cons_of_pos (by simp [hp]), List.map_cons, h0]

/-! ### The sort is the identity when the comparator never fires,
and reduces to the single insertion-sort pass on at most 20 elements -/

theorem insertInner_id (less : α → α → Bool) [Inhabited α] (l : List α)
    (hf : ∀ i j : Nat, less (getL l i) (getL l j) = false) (a : Nat) :
    ∀ j : Nat, insertInner less a l j = l := by
  intro j
  cases j with
  | zero => rfl
  | succ j =>
    rw [insertInner, if_neg]
    intro hcon
    rw [hf (j + 1) j] at hcon
    exact absurd hcon.2 (by simp)

theorem isortLoop_id (less : α → α → Bool) [Inhabited α] (l : List α)
    (hf : ∀ i j : Nat, less (getL l i) (getL l j) = false) (a : Nat) :
    ∀ (cnt i : Nat), isortLoop less a cnt i l = l := by
  intro cnt
  induction cnt with
  | zero => intro i; rfl
  | succ cnt ih =>
    intro i
    rw [isortLoop, insertInner_id less l hf a i]
    exact ih (i + 1)

theorem insertionSortGo_id (less : α → α → Bool) [Inhabited α] (l : List α)
    (hf : ∀ i j : Nat, less (getL l i) (getL l j) = false) (a b : Nat) :
    insertionSortGo less l a b = l :=
  isortLoop_id less l hf a _ _

theorem insBlocks_id (less : α → α → Bool) [Inhabited α] (l : List α)
    (hf : ∀ i j : Nat, less (getL l i) (getL l j) = false) (n : Nat) :
    ∀ (fuel a b : Nat), insBlocks less n fuel a b l = l := by
  intro fuel
  induction fuel with
  | zero => intro a b; rfl
  | succ fuel ih =>
    intro a b
    rw [insBlocks]
    split
    · rw [insertionSortGo_id less l hf a b]
      exact ih b (b + 20)
    · exact insertionSortGo_id less l hf a n

theorem symSearch1_id (less : α → α → Bool) [Inhabited α] (l : List α) (a : Nat)
    (hf : ∀ i j : Nat, less (getL l i) (getL l j) = false) :
    ∀ (fuel i j : Nat), j - i ≤ fuel → symSearch1 less l a fuel i j = i := by
  intro fuel
  induction fuel with
  | zero => intro i j h; rfl
  | succ fuel ih =>
    intro i j h
    rw [symSearch1]
    split
    · rename_i hij
      rw [hf ((i + j) / 2) a, if_neg (by simp)]
      exact ih i ((i + j) / 2) (by omega)
    · rfl

theorem symSearch2_id (less : α → α → Bool) [Inhabited α] (l : List α) (m : Nat)
    (hf : ∀ i j : Nat, less (getL l i) (getL l j) = false) :
    ∀ (fuel i j : Nat), j - i ≤ fuel → i ≤ j → symSearch2 less l m fuel i j = j := by
  intro fuel
  induction fuel with
  | zero =>
    intro i j h hij
    rw [show i = j from by omega]
    rfl
  | succ fuel ih =>
    intro i j h hij
    rw [symSearch2]
    split
    · rename_i hlt
      rw [hf m ((i + j) / 2), if_pos (by simp)]
      exact ih ((i + j) / 2 + 1) j (by omega) (by omega)
    · rename_i hge
      exact (by omega : i = j)

theorem symSearch2_ge (less : α → α → Bool) [Inhabited α] (l : List α) (m : Nat) :
    ∀ (fuel i j : Nat), j ≤ i → symSearch2 less l m fuel i j = i := by
  intro fuel
  cases fuel with
  | zero => intro i j h; rfl
  | succ fuel =>
    intro i j h
    rw [symSearch2, if_neg (by omega)]

theorem symSearch3_id (less : α → α → Bool) [Inhabited α] (l : List α) (n : Nat)
    (hf : ∀ i j : Nat, less (getL l i) (getL l j) = false) :
    ∀ (fuel s r : Nat), r - s ≤ fuel → s ≤ r → symSearch3 less l n fuel s r = r := by
  intro fuel
  induction fuel with
  | zero =>
    intro s r h hsr
    rw [show s = r from by omega]
    rfl
  | succ fuel ih =>
    intro s r h hsr
    rw [symSearch3]
    split
    · rename_i hlt
      rw [hf (n - 1 - (s + r) / 2) ((s + r) / 2), if_pos (by simp)]
      exact ih ((s + r) / 2 + 1) r (by omega) (by omega)
    · rename_i hge
      exact (by omega : s = r)

theorem symSearch3_ge (less : α → α → Bool) [Inhabited α] (l : List α) (n : Nat) :
    ∀ (fuel s r : Nat), r ≤ s → symSearch3 less l n fuel s r = s := by
  intro fuel
  cases fuel with
  | zero => intro s r h; rfl
  | succ fuel =>
    intro s r h
    rw [symSearch3, if_neg (by omega)]

theorem symCore_id [Inhabited α] (rec : List α → Nat → Nat → Nat → List α)
    (l : List α) (hrec : ∀ x y z : Nat, rec l x y z = l)
    (a m b mid start en : Nat) (hrot : ¬(start < m ∧ m < en)) :
    symCore rec l a m b mid start en = l := by
  unfold symCore
  show (if mid < en ∧ en < b then
      rec (if a < start ∧ start < mid then
             rec (if start < m ∧ m < en then rotateGo l start m en else l) a start mid
           else (if start < m ∧ m < en then rotateGo l start m en else l)) mid en b
    else (if a < start ∧ start < mid then
             rec (if start < m ∧ m < en then rotateGo l start m en else l) a start mid
           else (if start < m ∧ m < en then rotateGo l start m en else l))) = l
  rw [if_neg hrot]
  simp only [hrec, ite_self]

theorem symGeneral_id (less : α → α → Bool) [Inhabited α]
    (rec : List α → Nat → Nat → Nat → List α) (l : List α)
    (hf : ∀ i j : Nat, less (getL l i) (getL l j) = false)
    (hrec : ∀ x y z : Nat, rec l x y z = l) (a m b : Nat) :
    symGeneral less rec l a m b = l := by
  unfold symGeneral
  show symCore rec l a m b ((a + b) / 2)
      (if (a + b) / 2 < m then
         symSearch3 less l ((a + b) / 2 + m) ((a + b) / 2 - ((a + b) / 2 + m - b) + 1)
           ((a + b) / 2 + m - b) ((a + b) / 2)
       else symSearch3 less l ((a + b) / 2 + m) (m - a + 1) a m)
      ((a + b) / 2 + m -
        (if (a + b) / 2 < m then
           symSearch3 less l ((a + b) / 2 + m) ((a + b) / 2 - ((a + b) / 2 + m - b) + 1)
             ((a + b) / 2 + m - b) ((a + b) / 2)
         else symSearch3 less l ((a + b) / 2 + m) (m - a + 1) a m)) = l
  by_cases hm : (a + b) / 2 < m
  · rw [if_pos hm]
    by_cases hb : m ≤ b
    · rw [symSearch3_id less l _ hf _ _ _ (by omega) (by omega)]
      exact symCore_id rec l hrec a m b _ _ _ (by omega)
    · rw [symSearch3_ge less l _ _ _ _ (by omega)]
      exact symCore_id rec l hrec a m b _ _ _ (by omega)
  · rw [if_neg hm]
    rcases Nat.le_total a m with ham | ham
    · rw [symSearch3_id less l _ hf _ _ _ (by omega) ham]
      exact symCore_id rec l hrec a m b _ _ _ (by omega)
    · rw [symSearch3_ge less l _ _ _ _ ham]
      exact symCore_id rec l hrec a m b _ _ _ (by omega)

theorem symMergeGo_id (less : α → α → Bool) [Inhabited α] (l : List α)
    (hf : ∀ i j : Nat, less (getL l i) (getL l j) = false) :
    ∀ (fuel a m b : Nat), symMergeGo less fuel l a m b = l := by
  intro fuel
  induction fuel with
  | zero => intro a m b; rfl
  | succ fuel ih =>
    intro a m b
    rw [symMergeGo]
    split
    · rename_i h1
      rw [symSearch1_id less l a hf _ m b (by omega),
        show m - 1 - a = 0 from by omega]
      rfl
    · split
      · rename_i h1 h2
        rcases Nat.le_total a m with ham | ham
        · rw [symSearch2_id less l m hf _ a m (by omega) ham, Nat.sub_self]
          rfl
        · rw [symSearch2_ge less l m _ a m ham, show m - a = 0 from by omega]
          rfl
      · exact symGeneral_id less (symMergeGo less fuel) l hf (fun x y z => ih x y z) a m b

theorem mergeRound_id (less : α → α → Bool) [Inhabited α] (l : List α)
    (hf : ∀ i j : Nat, less (getL l i) (getL l j) = false) (n bs : Nat) :
    ∀ (fuel a b : Nat), mergeRound less n bs fuel a b l = l := by
  intro fuel
  induction fuel with
  | zero => intro a b; rfl
  | succ fuel ih =>
    intro a b
    rw [mergeRound]
    split
    · rw [symMergeGo_id less l hf]
      exact ih _ _
    · split
      · exact symMergeGo_id less l hf _ _ _ _
      · rfl

theorem mergeRounds_id (less : α → α → Bool) [Inhabited α] (l : List α)
    (hf : ∀ i j : Nat, less (getL l i) (getL l j) = false) (n : Nat) :
    ∀ (fuel bs : Nat), mergeRounds less n fuel bs l = l := by
  intro fuel
  induction fuel with
  | zero => intro bs; rfl
  | succ fuel ih =>
    intro bs
    rw [mergeRounds]
    split
    · rw [mergeRound_id less l hf n bs]
      exact ih _
    · rfl

theorem goStableSort_id (less : α → α → Bool) [Inhabited α] (l : List α)
    (hf : ∀ i j : Nat, less (getL l i) (getL l j) = false) :
    goStableSort less l = l := by
  unfold goStableSort stableGo
  rw [insBlocks_id less l hf, mergeRounds_id less l hf]

/-! ### equivalence with the insertion-sort pass for short lists -/

theorem bubble_length (less : α → α → Bool) (x : α) :
    ∀ l : List α, (bubble less x l).length = l.length + 1 := by
  intro l
  induction l with
  | nil => rfl
  | cons y ys ih =>
    rw [bubble]
    split
    · rw [List.length_cons, ih, List.length_cons]
    · rfl

theorem getL_len1_append [Inhabited α] (A : List α) (u v : α) (C : List α) :
    getL (A ++ u :: v :: C) (A.length + 1) = v := by
  rw [show A ++ u :: v :: C = (A ++ [u]) ++ v :: C by simp,
    show A.length + 1 = (A ++ [u]).length by simp]
  exact getL_len_append _ _ _

theorem swapL_adj [Inhabited α] (A : List α) (u v : α) (C : List α) :
    swapL (A ++ u :: v :: C) (A.length + 1) A.length = A ++ v :: u :: C := by
  unfold swapL
  rw [if_pos (by refine ⟨?_, ?_⟩ <;> (simp [List.length_append]))]
  rw [getL_len_append, getL_len1_append]
  have h1 : (A ++ u :: v :: C).set (A.length + 1) u = A ++ u :: u :: C := by
    rw [show A ++ u :: v :: C = (A ++ [u]) ++ v :: C by simp,
      show A.length + 1 = (A ++ [u]).length by simp, set_len_append]
    simp
  rw [h1, set_len_append]

theorem insertInner_bubble (less : α → α → Bool) [Inhabited α] (P : List α) :
    ∀ (x : α) (S : List α),
      insertInner less 0 (P ++ x :: S) P.length =
        (bubble less x P.reverse).reverse ++ S := by
  induction P using List.reverseRecOn with
  | nil => intro x S; simp [insertInner, bubble]
  | append_singleton P y ih =>
    intro x S
    rw [show (P ++ [y]) ++ x :: S = P ++ y :: x :: S by simp,
      show (P ++ [y]).length = P.length + 1 by simp,
      insertInner, getL_len1_append, getL_len_append,
      show (P ++ [y]).reverse = y :: P.reverse by simp, bubble]
    rcases hxy : less x y with _ | _
    · simp only [Bool.false_eq_true, and_false, if_false]
      simp
    · rw [if_pos ⟨by omega, rfl⟩, if_pos rfl, swapL_adj, ih x (y :: S)]
      simp

theorem isortLoop_foldl (less : α → α → Bool) [Inhabited α] :
    ∀ (rest racc : List α),
      isortLoop less 0 rest.length racc.length (racc.reverse ++ rest) =
        (rest.foldl (fun r x => bubble less x r) racc).reverse := by
  intro rest
  induction rest with
  | nil => intro racc; simp [isortLoop]
  | cons x rest ih =>
    intro racc
    rw [show (x :: rest).length = rest.length + 1 from rfl, isortLoop]
    have h1 : insertInner less 0 (racc.reverse ++ x :: rest) racc.length =
        (bubble less x racc).reverse ++ rest := by
      have h := insertInner_bubble less racc.reverse x rest
      rw [List.length_reverse] at h
      rw [h, List.reverse_reverse]
    have h2 : racc.length + 1 = (bubble less x racc).length := by
      rw [bubble_length]
    rw [h1, h2, List.foldl_cons]
    exact ih (bubble less x racc)

theorem insertionSortGo_foldl (less : α → α → Bool) [Inhabited α] (l : List α) :
    insertionSortGo less l 0 l.length = insertionSortList less l := by
  cases l with
  | nil => rfl
  | cons e rest =>
    unfold insertionSortGo
    have h := isortLoop_foldl less rest [e]
    have h0 : ([e] : List α).reverse ++ rest = e :: rest := by simp
    have h1 : ([e] : List α).length = 1 := rfl
    rw [h0, h1] at h
    rw [show (e :: rest).length - (0 + 1) = rest.length from by simp, h]
    unfold insertionSortList
    rw [List.foldl_cons]
    rfl

theorem insBlocks_small (less : α → α → Bool) [Inhabited α] (l : List α) (n : Nat)
    (h : n ≤ 20) : insBlocks less n (n + 1) 0 20 l = insertionSortGo less l 0 n := by
  rcases Nat.lt_or_ge n 20 with h20 | h20
  · rw [insBlocks, if_neg (by omega)]
  · have h20' : n = 20 := by omega
    subst h20'
    rfl

theorem stableGo_small (less : α → α → Bool) [Inhabited α] (l : List α)
    (h : l.length ≤ 20) : stableGo less l = insertionSortGo less l 0 l.length := by
  unfold stableGo
  rw [insBlocks_small less l l.length h, mergeRounds, if_neg (by omega)]

theorem goStableSort_small (less : α → α → Bool) [Inhabited α] (l : List α)
    (h : l.length ≤ 20) : goStableSort less l = insertionSortList less l := by
  unfold goStableSort
  rw [stableGo_small less l h, insertionSortGo_foldl]

theorem goStableSort_one (less : α → α → Bool) [Inhabited α] (x : α) :
    goStableSort less [x] = [x] := by
  rw [goStableSort_small less [x] (by simp)]
  rfl

theorem goStableSort_two (less : α → α → Bool) [Inhabited α] (x y : α)
    (h : less y x = false) : goStableSort less [x, y] = [x, y] := by
  rw [goStableSort_small less [x, y] (by simp)]
  unfold insertionSortList
  simp [List.foldl_cons, List.foldl_nil, bubble, h]

/-- Projecting the names of a sub-collection of the candidates recovers
exactly their handlers, provided candidate names are distinct. -/
theorem project_names_of_sub (cs' cs1 : List Callback)
    (hskel : cs'.map skel = cs1.map skel)
    (hnd : (cs1.map (·.name)).Nodup)
    (hnr : ∀ c ∈ cs1, c.remove = false) :
    ∀ L : List Callback, (∀ c ∈ L, c ∈ cs1) →
      project cs' (cs1.map (·.name)) (L.map (·.name)) = L.map (·.handler) := by
  intro L
  induction L with
  | nil => intro _; rfl
  | cons c L ih =>
    intro hsub
    have hc : c ∈ cs1 := hsub c (List.mem_cons_self c L)
    rcases List.get?_of_mem hc with ⟨i, hget⟩
    rcases getRIndex_names_self hnd hget with ⟨h1, h2⟩
    rw [List.map_cons, project, h1]
    dsimp only
    have hsk := getCb_skel_eq hskel i
    have hrm : (getCb cs' i).remove = false := by
      have := congrArg (fun p => p.2.2.1) hsk
      dsimp only [skel] at this
      rw [this, h2]
      exact hnr c hc
    have hh : (getCb cs' i).handler = c.handler := by
      have := congrArg (fun p => p.2.1) hsk
      dsimp only [skel] at this
      rw [this, h2]
    rw [hrm]
    simp only [Bool.false_eq_true, if_false]
    rw [hh, ih (fun d hd => hsub d (List.mem_cons_of_mem c hd))]
    rw [List.map_cons]

/-- Wildcard-only compilation on at most 20 steps (the range where
`sort.SliceStable` is a single insertion-sort pass): the compiled order
is the `before="*"` steps in **reverse** registration order, then the
unconstrained steps in registration order, then the `after="*"` steps
in registration order.  In particular the wildcard separation property
holds on this fragment, but the `before="*"` block is reversed, not
order-preserving. -/
theorem sortCallbacksF_wildcard_shape (fuel : Nat) (cs0 : List Callback)
    (hsz : cs0.length ≤ 20)
    (hW : ∀ c ∈ cs0, clsN c ∨ clsB c ∨ clsA c)
    (hstar : ∀ c ∈ cs0, c.name ≠ "*")
    (hnr : ∀ c ∈ cs0, c.remove = false)
    (hnd : (cs0.map (·.name)).Nodup) :
    (sortCallbacksF (fuel + 1) cs0).err = none ∧
    (sortCallbacksF (fuel + 1) cs0).fns =
      ((cs0.filter wildBefore).reverse ++ cs0.filter isNcb ++
        cs0.filter wildAfter).map (·.handler) := by
  rcases insertionSortList_wild cs0 hW with ⟨mix, hsort0, hfB, hfA, hmix⟩
  have hsort : goStableSort goLess cs0 = cs0.filter isNcb ++ mix :=
    (goStableSort_small goLess cs0 hsz).trans hsort0
  have hperm : (goStableSort goLess cs0).Perm cs0 := goStableSort_perm _ _
  have hnd1 : ((goStableSort goLess cs0).map (·.name)).Nodup :=
    (hperm.map _).nodup_iff.mpr hnd
  have hstar1 : getRIndex ((goStableSort goLess cs0).map (·.name)) "*" = none := by
    refine getRIndex_eq_none.mpr ?_
    intro hmem
    rcases List.mem_map.mp hmem with ⟨c, hc, hcn⟩
    exact hstar c (hperm.mem_iff.mp hc) hcn
  -- the resolution loop
  have hlen : (goStableSort goLess cs0).length =
      (cs0.filter isNcb).length + mix.length := by
    rw [hsort, List.length_append]
  have hrange : List.range (goStableSort goLess cs0).length =
      List.range (cs0.filter isNcb).length ++
        (List.range mix.length).map ((cs0.filter isNcb).length + ·) := by
    rw [hlen, List.range_add]
  -- phase 1: the plain steps
  have hNcls : ∀ c ∈ cs0.filter isNcb, clsN c := by
    intro c hc
    rcases List.mem_filter.mp hc with ⟨hc0, hcN⟩
    rcases hW c hc0 with h | h | h
    · exact h
    · rw [(clsB_wild h).2.2] at hcN
      cases hcN
    · rw [(clsA_wild h).2.2] at hcN
      cases hcN
  have hsplitnames : (goStableSort goLess cs0).map (·.name) =
      (cs0.filter isNcb).map (·.name) ++ mix.map (·.name) := by
    rw [hsort, List.map_append]
  have hnd_split := hsplitnames ▸ hnd1
  rcases List.nodup_append.mp hnd_split with ⟨hndN, hndM, hdisj⟩
  -- evaluate phase 1
  have hgetN : ∀ i ∈ List.range (cs0.filter isNcb).length,
      getCb (goStableSort goLess cs0) i = getCb (cs0.filter isNcb) i := by
    intro i hi
    rw [hsort]
    exact getCb_append_left (List.mem_range.mp hi)
  have hnames_range_N : (List.range (cs0.filter isNcb).length).map
      (fun i => (getCb (goStableSort goLess cs0) i).name) =
      (cs0.filter isNcb).map (·.name) := by
    rw [List.map_congr_left (fun i hi => by rw [hgetN i hi])]
    have hm := map_getCb_range (cs0.filter isNcb)
    calc (List.range (cs0.filter isNcb).length).map
          (fun i => (getCb (cs0.filter isNcb) i).name)
        = ((List.range (cs0.filter isNcb).length).map
            (getCb (cs0.filter isNcb))).map (·.name) := by
          rw [List.map_map]
          rfl
      _ = (cs0.filter isNcb).map (·.name) := by rw [hm]
  have hp1 := sortLoop_plain fuel ((goStableSort goLess cs0).map (·.name))
    (List.range (cs0.filter isNcb).length) ⟨goStableSort goLess cs0, []⟩
    (fun i hi => by
      rw [hgetN i hi]
      exact hNcls _ (getCb_mem (List.mem_range.mp hi)))
    (by
      show ((List.range (cs0.filter isNcb).length).map
        (fun i => (getCb (goStableSort goLess cs0) i).name)).Nodup
      rw [hnames_range_N]
      exact hndN)
    (fun i _ => by simp)
  have hp1' : sortLoop (fuel + 1) ((goStableSort goLess cs0).map (·.name))
      ⟨goStableSort goLess cs0, []⟩ (List.range (cs0.filter isNcb).length) =
      (⟨goStableSort goLess cs0, (cs0.filter isNcb).map (·.name)⟩, none) := by
    rw [hp1]
    simp only [hnames_range_N]
    rfl
  -- phase 2: the wildcard block
  have hget2 : ∀ j : Nat,
      getCb (goStableSort goLess cs0) ((cs0.filter isNcb).length + j) =
        getCb mix j := by
    intro j
    rw [hsort]
    exact getCb_append_right _ _ j
  have hcls2 : ∀ i ∈ (List.range mix.length).map ((cs0.filter isNcb).length + ·),
      clsB (getCb (goStableSort goLess cs0) i) ∨
        clsA (getCb (goStableSort goLess cs0) i) := by
    intro i hi
    rcases List.mem_map.mp hi with ⟨j, hj, rfl⟩
    rw [hget2 j]
    exact (hmix _ (getCb_mem (List.mem_range.mp hj))).1
  have hmapname2 : ((List.range mix.length).map ((cs0.filter isNcb).length + ·)).map
      (fun i => (getCb (goStableSort goLess cs0) i).name) = mix.map (·.name) := by
    rw [List.map_map]
    have hfun : (fun i => (getCb (goStableSort goLess cs0) i).name) ∘
        ((cs0.filter isNcb).length + ·) = fun j => (getCb mix j).name := by
      funext j
      show (getCb (goStableSort goLess cs0) ((cs0.filter isNcb).length + j)).name = _
      rw [hget2 j]
    rw [hfun]
    have hm := map_getCb_range mix
    calc (List.range mix.length).map (fun j => (getCb mix j).name)
        = ((List.range mix.length).map (getCb mix)).map (·.name) := by
          rw [List.map_map]
          rfl
      _ = mix.map (·.name) := by rw [hm]
  have hnm2 : ∀ i ∈ (List.range mix.length).map ((cs0.filter isNcb).length + ·),
      (getCb (goStableSort goLess cs0) i).name ∉ (cs0.filter isNcb).map (·.name) := by
    intro i hi hmem
    rcases List.mem_map.mp hi with ⟨j, hj, rfl⟩
    rw [hget2 j] at hmem
    exact hdisj hmem
      (List.mem_map_of_mem (·.name) (getCb_mem (List.mem_range.mp hj)))
  have hp2 := sortLoop_wild fuel ((goStableSort goLess cs0).map (·.name)) hstar1
    ((List.range mix.length).map ((cs0.filter isNcb).length + ·))
    ⟨goStableSort goLess cs0, (cs0.filter isNcb).map (·.name)⟩
    hcls2 (by rw [hmapname2]; exact hndM) hnm2
  -- identify the two wildcard segments
  have hseg : ∀ (p : Callback → Bool),
      (((List.range mix.length).map ((cs0.filter isNcb).length + ·)).filter
          (fun i => p (getCb (goStableSort goLess cs0) i))).map
        (fun i => (getCb (goStableSort goLess cs0) i).name) =
      (mix.filter p).map (·.name) := by
    intro p
    rw [List.map_filter]
    rw [List.map_map]
    have hfun1 : (fun i => p (getCb (goStableSort goLess cs0) i)) ∘
        ((cs0.filter isNcb).length + ·) = fun j => p (getCb mix j) := by
      funext j
      show p (getCb (goStableSort goLess cs0) ((cs0.filter isNcb).length + j)) = _
      rw [hget2 j]
    have hfun2 : (fun i => (getCb (goStableSort goLess cs0) i).name) ∘
        ((cs0.filter isNcb).length + ·) = fun j => (getCb mix j).name := by
      funext j
      show (getCb (goStableSort goLess cs0) ((cs0.filter isNcb).length + j)).name = _
      rw [hget2 j]
    rw [hfun1, hfun2]
    exact range_filter_map_getCb p (·.name) mix
  have hp2' : sortLoop (fuel + 1) ((goStableSort goLess cs0).map (·.name))
      ⟨goStableSort goLess cs0, (cs0.filter isNcb).map (·.name)⟩
      ((List.range mix.length).map ((cs0.filter isNcb).length + ·)) =
      (⟨goStableSort goLess cs0,
        ((cs0.filter wildBefore).map (·.name)).reverse ++
          (cs0.filter isNcb).map (·.name) ++
          (cs0.filter wildAfter).map (·.name)⟩, none) := by
    rw [hp2]
    have h1 := hseg wildBefore
    have h2 := hseg wildAfter
    rw [h1, h2, hfB, hfA]
  -- the full loop
  have hloop : sortLoop (fuel + 1) ((goStableSort goLess cs0).map (·.name))
      ⟨goStableSort goLess cs0, []⟩
      (List.range (goStableSort goLess cs0).length) =
      (⟨goStableSort goLess cs0,
        ((cs0.filter wildBefore).map (·.name)).reverse ++
          (cs0.filter isNcb).map (·.name) ++
          (cs0.filter wildAfter).map (·.name)⟩, none) := by
    rw [hrange, sortLoop_append, hp1']
    exact hp2'
  -- assemble the final output
  have hout : sortCallbacksF (fuel + 1) cs0 =
      ⟨goStableSort goLess cs0,
        ((cs0.filter wildBefore).map (·.name)).reverse ++
          (cs0.filter isNcb).map (·.name) ++
          (cs0.filter wildAfter).map (·.name),
        project (goStableSort goLess cs0) ((goStableSort goLess cs0).map (·.name))
          (((cs0.filter wildBefore).map (·.name)).reverse ++
            (cs0.filter isNcb).map (·.name) ++
            (cs0.filter wildAfter).map (·.name)),
        (buildNamesWarns (goStableSort goLess cs0)).2, none⟩ := by
    unfold sortCallbacksF
    dsimp only
    rw [buildNamesWarns_fst, hloop]
  refine ⟨by rw [hout], ?_⟩
  rw [hout]
  dsimp only
  have hLnames : ((cs0.filter wildBefore).map (·.name)).reverse ++
      (cs0.filter isNcb).map (·.name) ++ (cs0.filter wildAfter).map (·.name) =
      ((cs0.filter wildBefore).reverse ++ cs0.filter isNcb ++
        cs0.filter wildAfter).map (·.name) := by
    rw [List.map_append, List.map_append, List.map_reverse]
  rw [hLnames]
  refine project_names_of_sub (goStableSort goLess cs0) (goStableSort goLess cs0)
    rfl hnd1 (fun c hc => hnr c (hperm.mem_iff.mp hc)) _ ?_
  intro c hc
  rcases List.mem_append.mp hc with hc | hc
  · rcases List.mem_append.mp hc with hc | hc
    · rw [List.mem_reverse] at hc
      exact hperm.mem_iff.mpr (List.mem_of_mem_filter hc)
    · exact hperm.mem_iff.mpr (List.mem_of_mem_filter hc)
  · exact hperm.mem_iff.mpr (List.mem_of_mem_filter hc)

/-! ### Compile-level lemmas -/

/-- The candidate set assembled by `processor.compile` before sorting:
condition-passing entries minus all entries sharing a name with a
tombstone. -/
def candsOf (p : Processor) (db : Nat) : List Callback :=
  removeCallbacks (p.callbacks.filter (matchPass db))
    ((p.callbacks.filter (·.remove)).map (·.name))

theorem removeCallbacks_nil (cs : List Callback) : removeCallbacks cs [] = cs := by
  unfold removeCallbacks
  refine List.filter_eq_self.mpr ?_
  intro c _
  simp

theorem compile_eq (fuel : Nat) (p : Processor) (db : Nat) :
    compile fuel p db =
      ⟨⟨(sortCallbacksF fuel (candsOf p db)).cs, (sortCallbacksF fuel (candsOf p db)).fns⟩,
        (sortCallbacksF fuel (candsOf p db)).warns, (sortCallbacksF fuel (candsOf p db)).err⟩ := by
  unfold compile candsOf
  dsimp only
  by_cases h : ((p.callbacks.filter (·.remove)).map (·.name)).isEmpty
  · rw [if_pos h]
    have he : (p.callbacks.filter (·.remove)).map (·.name) = [] := by
      rcases hl : (p.callbacks.filter (·.remove)).map (·.name) with _ | ⟨x, xs⟩
      · exact hl
      · rw [hl] at h
        cases h
    rw [he, removeCallbacks_nil]
  · rw [if_neg h]

theorem sortCallbacksF_err_fns (fuel : Nat) (cs0 : List Callback)
    (h : (sortCallbacksF fuel cs0).err ≠ none) : (sortCallbacksF fuel cs0).fns = [] := by
  unfold sortCallbacksF at h ⊢
  dsimp only at h ⊢
  rcases hL : sortLoop fuel (buildNamesWarns (goStableSort goLess cs0)).1
      ⟨goStableSort goLess cs0, []⟩
      (List.range (goStableSort goLess cs0).length) with ⟨st, e⟩
  rw [hL] at h
  rcases e with _ | e
  · exact absurd rfl h
  · rfl

/-- The registry after a compile holds exactly the candidate set
(reordered by the stable pre-sort, with `before`/`after` fields possibly
rewritten): names and handlers are preserved as a permutation. -/
theorem compile_registry_names (fuel : Nat) (p : Processor) (db : Nat) :
    (((compile fuel p db).p.callbacks).map (·.name)).Perm
      ((candsOf p db).map (·.name)) := by
  rw [compile_eq]
  dsimp only
  have hs := sortCallbacksF_cs_skel fuel (candsOf p db)
  rw [names_of_skel hs]
  exact (goStableSort_perm goLess (candsOf p db)).map _

/-- A plain registration: no constraints, no condition, not a tombstone,
not a replacement. -/
def PlainCb (c : Callback) : Prop :=
  c.before = "" ∧ c.after = "" ∧ c.remove = false ∧ c.replace = false ∧ c.match_ = none

theorem map_fun_getCb_range (f : Callback → α) (l : List Callback) :
    (List.range l.length).map (fun i => f (getCb l i)) = l.map f := by
  have hm := map_getCb_range l
  calc (List.range l.length).map (fun i => f (getCb l i))
      = ((List.range l.length).map (getCb l)).map f := by
        rw [List.map_map]
        rfl
    _ = l.map f := by rw [hm]

/-- Compiling a registry of plain steps with distinct names succeeds and
compiles the handlers in registration order, leaving the registry
untouched and emitting no warnings. -/
theorem compile_plain (fuel : Nat) (p : Processor) (db : Nat)
    (hp : ∀ c ∈ p.callbacks, PlainCb c)
    (hnd : (p.callbacks.map (·.name)).Nodup) :
    compile (fuel + 1) p db =
      ⟨⟨p.callbacks, p.callbacks.map (·.handler)⟩, [], none⟩ := by
  have hcands : candsOf p db = p.callbacks := by
    unfold candsOf
    have h1 : p.callbacks.filter (matchPass db) = p.callbacks := by
      refine List.filter_eq_self.mpr ?_
      intro c hc
      unfold matchPass
      rw [(hp c hc).2.2.2.2]
    have h2 : p.callbacks.filter (·.remove) = [] := by
      refine List.filter_eq_nil.mpr ?_
      intro c hc
      rw [(hp c hc).2.2.1]
      simp
    rw [h1, h2]
    exact removeCallbacks_nil _
  rw [compile_eq, hcands]
  have hsort : goStableSort goLess p.callbacks = p.callbacks := by
    refine goStableSort_id goLess p.callbacks ?_
    intro i j
    have hy : (getL p.callbacks j).before = "" ∧ (getL p.callbacks j).after = "" := by
      by_cases hj : j < p.callbacks.length
      · have hm : getL p.callbacks j ∈ p.callbacks := getL_mem hj
        exact ⟨(hp _ hm).1, (hp _ hm).2.1⟩
      · unfold getL
        rw [List.get?_eq_none.mpr (by omega)]
        exact ⟨rfl, rfl⟩
    unfold goLess
    rw [hy.1, hy.2]
    simp
  have hnw2 : (buildNamesWarns p.callbacks).2 = [] := by
    unfold buildNamesWarns
    exact buildNWAux_snd_nodup p.callbacks p.callbacks ([], [])
      (fun c _ h => by cases h) hnd
  have hloop := sortLoop_plain fuel (p.callbacks.map (·.name))
    (List.range p.callbacks.length) ⟨p.callbacks, []⟩
    (fun i hi => by
      have := hp _ (getCb_mem (List.mem_range.mp hi))
      exact ⟨this.1, this.2.1⟩)
    (by
      show ((List.range p.callbacks.length).map
        (fun i => (getCb p.callbacks i).name)).Nodup
      rw [map_fun_getCb_range]
      exact hnd)
    (fun i _ => by simp)
  have hloop' : sortLoop (fuel + 1) (p.callbacks.map (·.name))
      ⟨p.callbacks, []⟩ (List.range p.callbacks.length) =
      (⟨p.callbacks, p.callbacks.map (·.name)⟩, none) := by
    rw [hloop]
    simp only [map_fun_getCb_range]
    rfl
  have hout : sortCallbacksF (fuel + 1) p.callbacks =
      ⟨p.callbacks, p.callbacks.map (·.name),
        project p.callbacks (p.callbacks.map (·.name)) (p.callbacks.map (·.name)),
        (buildNamesWarns p.callbacks).2, none⟩ := by
    unfold sortCallbacksF
    dsimp only
    rw [hsort, buildNamesWarns_fst, hloop']
  rw [hout, hnw2]
  have hproj : project p.callbacks (p.callbacks.map (·.name))
      (p.callbacks.map (·.name)) = p.callbacks.map (·.handler) :=
    project_names_of_sub p.callbacks p.callbacks rfl hnd
      (fun c hc => (hp c hc).2.2.1) p.callbacks (fun c hc => hc)
  rw [hproj]

/-- The callback `⟨name, handler⟩` as registered through the plain `Register` API. -/
def plainStep (nh : String × Nat) : Callback :=
  ⟨nh.1, "", "", false, false, none, nh.2⟩

/-- Register a list of (name, handler) pairs one at a time through the
plain `Register` API (each registration triggering its compile),
returning the result of the last compile. -/
def registerAll (fuel db : Nat) : CompileRes → List (String × Nat) → CompileRes
  | r, [] => r
  | r, nh :: rest => registerAll fuel db (registerCb fuel db r.p nh.1 "" "" nh.2) rest

theorem registerAll_plain (fuel db : Nat) :
    ∀ (regs : List (String × Nat)) (nh : String × Nat) (done : List (String × Nat))
      (w : List String) (e : Option String),
      (((done ++ nh :: regs).map Prod.fst)).Nodup →
      registerAll (fuel + 1) db ⟨⟨done.map plainStep, done.map Prod.snd⟩, w, e⟩
          (nh :: regs) =
        ⟨⟨(done ++ nh :: regs).map plainStep, (done ++ nh :: regs).map Prod.snd⟩,
          [], none⟩ := by
  intro regs
  induction regs with
  | nil =>
    intro nh done w e hnd
    rw [registerAll, registerAll]
    unfold registerCb
    dsimp only
    have happ : (done.map plainStep) ++ [⟨nh.1, "", "", false, false, none, nh.2⟩] =
        (done ++ [nh]).map plainStep := by
      rw [List.map_append]
      rfl
    rw [happ]
    have hplain : ∀ c ∈ (done ++ [nh]).map plainStep, PlainCb c := by
      intro c hc
      rcases List.mem_map.mp hc with ⟨x, _, rfl⟩
      exact ⟨rfl, rfl, rfl, rfl, rfl⟩
    have hnames : ((done ++ [nh]).map plainStep).map (·.name) =
        (done ++ [nh]).map Prod.fst := by
      rw [List.map_map]
      rfl
    have hnd' : (((done ++ [nh]).map plainStep).map (·.name)).Nodup := by
      rw [hnames]
      exact hnd
    have := compile_plain fuel ⟨(done ++ [nh]).map plainStep, done.map Prod.snd⟩ db
      (by exact hplain) hnd'
    rw [this]
    have hhandlers : ((done ++ [nh]).map plainStep).map (·.handler) =
        (done ++ [nh]).map Prod.snd := by
      rw [List.map_map]
      rfl
    rw [hhandlers]
  | cons nh2 rest ih =>
    intro nh done w e hnd
    rw [registerAll]
    unfold registerCb
    dsimp only
    have happ : (done.map plainStep) ++ [⟨nh.1, "", "", false, false, none, nh.2⟩] =
        (done ++ [nh]).map plainStep := by
      rw [List.map_append]
      rfl
    rw [happ]
    have hplain : ∀ c ∈ (done ++ [nh]).map plainStep, PlainCb c := by
      intro c hc
      rcases List.mem_map.mp hc with ⟨x, _, rfl⟩
      exact ⟨rfl, rfl, rfl, rfl, rfl⟩
    have hnd1 : (((done ++ [nh]).map plainStep).map (·.name)).Nodup := by
      rw [List.map_map]
      show ((done ++ [nh]).map (Prod.fst)).Nodup
      have : done ++ nh :: nh2 :: rest = (done ++ [nh]) ++ (nh2 :: rest) := by
        rw [List.append_assoc]
        rfl
      rw [this, List.map_append] at hnd
      rcases List.nodup_append.mp hnd with ⟨h1, _, _⟩
      exact h1
    have hc := compile_plain fuel ⟨(done ++ [nh]).map plainStep, done.map Prod.snd⟩ db
      (by exact hplain) hnd1
    rw [hc]
    have hhandlers : ((done ++ [nh]).map plainStep).map (·.handler) =
        (done ++ [nh]).map Prod.snd := by
      rw [List.map_map]
      rfl
    rw [hhandlers]
    have hassoc : done ++ nh :: nh2 :: rest = (done ++ [nh]) ++ (nh2 :: rest) := by
      rw [List.append_assoc]
      rfl
    rw [hassoc]
    exact ih nh2 (done ++ [nh]) [] none (by rw [← hassoc]; exact hnd)

/-! ### The execution harness (`processor.Execute`, lines 84–162) -/

/-- The statement-buffer slice of the per-operation context: the SQL
text buffer, the bound parameter list, and the build-clause list. -/
structure Stmt where
  sql : String
  vars : List Nat
  buildClauses : List String
deriving Inhabited

/-- Model of `processor.Execute` (lines 84–162), built for the statement-buffer
lifecycle.  The scope resolution, statement-modifier capability, model
assignment, parsing and reflection stages (lines 86–136) mutate other
parts of the context and are abstracted as one opaque preparation
function `prep`; the compiled function list `fns` then runs in order
(lines 138–140); the trace hook (lines 142–150) only reads the
statement; the SQL buffer and parameter list are cleared unless the
dry-run flag is set (lines 152–155); and the adopted clause list is
restored (lines 96–99 and 157–159). -/
def Execute (pClauses : List String) (prep : Stmt → Stmt)
    (fns : List (Stmt → Stmt)) (dryRun : Bool) (st0 : Stmt) : Stmt :=
  let resetBuild := st0.buildClauses.isEmpty
  let st1 := if resetBuild then { st0 with buildClauses := pClauses } else st0
  let st2 := prep st1
  let st3 := fns.foldl (fun s f => f s) st2
  let st4 := if dryRun then st3 else { st3 with sql := "", vars := [] }
  if resetBuild then { st4 with buildClauses := [] } else st4

/-! ### Claim theorems -/

/-- C1 (corrected).  Registering the same name `Y` twice with different
actions through plain `Register`: a duplicate-name warning is emitted
and `Get` returns the second action, but the compiled function list
contains only the second action, once — the projection loop keeps one
handler per sorted name, taken at the name's last registry occurrence,
so the first action is not run. -/
theorem C1_duplicate_name_runs_last_only :
    (registerCb 4 0 (registerCb 4 0 ⟨[], []⟩ "Y" "" "" 10).p "Y" "" "" 20).p.fns = [20] ∧
    (registerCb 4 0 (registerCb 4 0 ⟨[], []⟩ "Y" "" "" 10).p "Y" "" "" 20).warns = ["Y"] ∧
    getHandler (registerCb 4 0 (registerCb 4 0 ⟨[], []⟩ "Y" "" "" 10).p "Y" "" "" 20).p "Y"
      = some 20 ∧
    (10 : Nat) ∉ (registerCb 4 0 (registerCb 4 0 ⟨[], []⟩ "Y" "" "" 10).p "Y" "" "" 20).p.fns := by
  decide

/-- C1 counterexample to the claim as stated: after registering `Y`
twice (actions `0` then `1`), the compiled list is not `[0, 1]` — the
first action is dropped, both actions are not run. -/
theorem C1_counterexample :
    (registerCb 4 0 (registerCb 4 0 ⟨[], []⟩ "Y" "" "" 0).p "Y" "" "" 1).p.fns ≠ [0, 1] ∧
    (registerCb 4 0 (registerCb 4 0 ⟨[], []⟩ "Y" "" "" 0).p "Y" "" "" 1).p.fns = [1] := by
  decide

/-- C2 (corrected).  Whenever `sortCallbacks` completes without error on
a tombstone-free candidate set, the resolved name sequence is a
permutation of the **distinct** candidate names; when candidate names
are pairwise distinct the compiled function list is a permutation of
the candidate handlers.  (With duplicate names the compiled list holds
one action per name — the last-registered — so it is not a permutation
of the full candidate set; see the counterexample.) -/
theorem C2_success_is_permutation_of_distinct_names (fuel : Nat) (cs0 : List Callback)
    (herr : (sortCallbacksF fuel cs0).err = none)
    (hnr : ∀ c ∈ cs0, c.remove = false) :
    (sortCallbacksF fuel cs0).sorted.Perm ((cs0.map (·.name)).dedup) ∧
    ((cs0.map (·.name)).Nodup →
      (sortCallbacksF fuel cs0).fns.Perm (cs0.map (·.handler))) :=
  sortCallbacksF_perm fuel cs0 herr hnr

/-- C2 witness: a two-step conflict-free candidate set satisfies the
hypotheses and the conclusion. -/
theorem C2_witness :
    (sortCallbacksF 3 [⟨"x", "", "", false, false, none, 5⟩,
        ⟨"y", "", "", false, false, none, 7⟩]).err = none ∧
    ((sortCallbacksF 3 [⟨"x", "", "", false, false, none, 5⟩,
        ⟨"y", "", "", false, false, none, 7⟩]).sorted.Perm
      ((([⟨"x", "", "", false, false, none, 5⟩,
          ⟨"y", "", "", false, false, none, 7⟩] : List Callback).map (·.name)).dedup) ∧
      ((([⟨"x", "", "", false, false, none, 5⟩,
          ⟨"y", "", "", false, false, none, 7⟩] : List Callback).map (·.name)).Nodup →
        (sortCallbacksF 3 [⟨"x", "", "", false, false, none, 5⟩,
          ⟨"y", "", "", false, false, none, 7⟩]).fns.Perm
          (([⟨"x", "", "", false, false, none, 5⟩,
            ⟨"y", "", "", false, false, none, 7⟩] : List Callback).map (·.handler)))) :=
  ⟨by decide,
    C2_success_is_permutation_of_distinct_names 3 _ (by decide) (by decide)⟩

/-- C2 counterexample to the claim as stated: with a duplicated name
the compilation succeeds but the compiled list `[1]` is not a
permutation of the candidate actions `[0, 1]` — a step is lost. -/
theorem C2_counterexample :
    (registerCb 4 0 (registerCb 4 0 ⟨[], []⟩ "Y" "" "" 0).p "Y" "" "" 1).err = none ∧
    (registerCb 4 0 (registerCb 4 0 ⟨[], []⟩ "Y" "" "" 0).p "Y" "" "" 1).p.callbacks.map
      (·.handler) = [0, 1] ∧
    ¬ (registerCb 4 0 (registerCb 4 0 ⟨[], []⟩ "Y" "" "" 0).p "Y" "" "" 1).p.fns.Perm
      [0, 1] := by
  decide

/-- C3 (corrected).  After `Remove("X")`, the compile triggered by the
removal deletes every step named `X` **and the tombstone itself** from
the registry (`removeCallbacks` drops all carriers of the name,
including the `remove` marker): the compiled list and lookup exclude
`X`, but a same-named step registered *after* the removal is compiled
and runs again — the tombstone does not persist. -/
theorem C3_remove_is_consumed_by_its_compile :
    ((removeCb 4 0 (registerCb 4 0 ⟨[], []⟩ "X" "" "" 10).p "X").p.fns = [] ∧
     (removeCb 4 0 (registerCb 4 0 ⟨[], []⟩ "X" "" "" 10).p "X").p.callbacks.length = 0 ∧
     getHandler (removeCb 4 0 (registerCb 4 0 ⟨[], []⟩ "X" "" "" 10).p "X").p "X" = none) ∧
    ((registerCb 4 0 (removeCb 4 0 (registerCb 4 0 ⟨[], []⟩ "X" "" "" 10).p "X").p
        "X" "" "" 20).err = none ∧
     (registerCb 4 0 (removeCb 4 0 (registerCb 4 0 ⟨[], []⟩ "X" "" "" 10).p "X").p
        "X" "" "" 20).p.fns = [20]) := by
  decide

/-- C3 counterexample to the claim as stated: a step named `X`
registered after `remove("X")` is **included** in the next compiled
list (the claim predicts it stays excluded). -/
theorem C3_counterexample :
    (registerCb 4 0 (removeCb 4 0 (registerCb 4 0 ⟨[], []⟩ "X" "" "" 0).p "X").p
      "X" "" "" 1).p.fns ≠ [] := by
  decide

set_option maxHeartbeats 1000000 in
/-- Evaluation of the first registration of the mutual-before
scenario: registering `a` with `before = b` on an empty stage compiles
to the single handler `f` with no error (the forward reference to the
absent `b` is simply deferred). -/
theorem mutual_before_first (fuel db : Nat) (a b : String) (f : Nat)
    (hab : a ≠ b) (ha1 : a ≠ "") (ha2 : a ≠ "*")
    (hb1 : b ≠ "") (hb2 : b ≠ "*") :
    registerCb (fuel + 1) db ⟨[], []⟩ a b "" f =
      ⟨⟨[⟨a, b, "", false, false, none, f⟩], [f]⟩, [], none⟩ := by
  simp [registerCb, compile, matchPass, removeCallbacks, sortCallbacksF, goStableSort_one,
    goStableSort_two, goLess, buildNamesWarns, buildNWAux, getRIndex, sortLoop, sortCallbackF,
    stepBefore, stepAfter, finalAppend, deferTarget, getCb, setAfter, setBefore, project,
    hab, ha1, ha2, hb1, hb2]

set_option maxHeartbeats 1000000 in
/-- Evaluation of the second registration of the mutual-before
scenario: registering `b` with `before = a` into the stage holding `a`
with `before = b` makes the compile resolve `a` first — mutating `b`'s
`after` field to `a` — and then detect the position inversion when
resolving `b`, returning a conflict error with an empty compiled list
while the mutated registry is kept. -/
theorem mutual_before_second (fuel db : Nat) (a b : String) (f g : Nat)
    (hab : a ≠ b) (ha1 : a ≠ "") (ha2 : a ≠ "*")
    (hb1 : b ≠ "") (hb2 : b ≠ "*") :
    registerCb (fuel + 1) db ⟨[⟨a, b, "", false, false, none, f⟩], [f]⟩ b a "" g =
      ⟨⟨[⟨a, b, "", false, false, none, f⟩, ⟨b, a, a, false, false, none, g⟩], []⟩, [],
        some ("conflicting callback " ++ b ++ " with before " ++ a)⟩ := by
  simp [registerCb, compile, matchPass, removeCallbacks, sortCallbacksF, goStableSort_one,
    goStableSort_two, goLess, buildNamesWarns, buildNWAux, getRIndex, sortLoop, sortCallbackF,
    stepBefore, stepAfter, finalAppend, deferTarget, getCb, setAfter, setBefore, project,
    hab, ha1, ha2, hb1, hb2]

/-- Full evaluation of the mutual-before scenario: registering `a`
with `before = b` and then `b` with `before = a` (any distinct,
non-empty, non-wildcard names, any handlers, any recursion budget)
always ends in a conflict error with an empty compiled list while the
mutated registry is kept. -/
theorem mutual_before_eval (fuel db : Nat) (a b : String) (f g : Nat)
    (hab : a ≠ b) (ha1 : a ≠ "") (ha2 : a ≠ "*")
    (hb1 : b ≠ "") (hb2 : b ≠ "*") :
    registerCb (fuel + 1) db (registerCb (fuel + 1) db ⟨[], []⟩ a b "" f).p b a "" g =
      ⟨⟨[⟨a, b, "", false, false, none, f⟩, ⟨b, a, a, false, false, none, g⟩], []⟩, [],
        some ("conflicting callback " ++ b ++ " with before " ++ a)⟩ := by
  rw [mutual_before_first fuel db a b f hab ha1 ha2 hb1 hb2]
  exact mutual_before_second fuel db a b f g hab ha1 ha2 hb1 hb2

/-- C4 (confirmed).  For every pair of distinct (non-empty,
non-wildcard) step names with mutual `before` constraints, registered
in either order, the final compilation returns a conflict error and
compiles nothing — never a silently-accepted partial order. -/
theorem C4_mutual_before_always_conflicts (fuel db : Nat) (a b : String) (f g : Nat)
    (hab : a ≠ b) (ha1 : a ≠ "") (ha2 : a ≠ "*")
    (hb1 : b ≠ "") (hb2 : b ≠ "*") :
    ((registerCb (fuel + 1) db (registerCb (fuel + 1) db ⟨[], []⟩ a b "" f).p b a "" g).err =
        some ("conflicting callback " ++ b ++ " with before " ++ a) ∧
      (registerCb (fuel + 1) db (registerCb (fuel + 1) db ⟨[], []⟩ a b "" f).p b a "" g).p.fns
        = []) ∧
    ((registerCb (fuel + 1) db (registerCb (fuel + 1) db ⟨[], []⟩ b a "" g).p a b "" f).err =
        some ("conflicting callback " ++ a ++ " with before " ++ b) ∧
      (registerCb (fuel + 1) db (registerCb (fuel + 1) db ⟨[], []⟩ b a "" g).p a b "" f).p.fns
        = []) := by
  have h1 := mutual_before_eval fuel db a b f g hab ha1 ha2 hb1 hb2
  have h2 := mutual_before_eval fuel db b a g f (Ne.symm hab) hb1 hb2 ha1 ha2
  exact ⟨⟨by rw [h1], by rw [h1]⟩, ⟨by rw [h2], by rw [h2]⟩⟩

/-- C4 witness at concrete names and handlers. -/
theorem C4_witness :
    ((registerCb 1 0 (registerCb 1 0 ⟨[], []⟩ "A" "B" "" 1).p "B" "A" "" 2).err =
        some ("conflicting callback " ++ "B" ++ " with before " ++ "A") ∧
      (registerCb 1 0 (registerCb 1 0 ⟨[], []⟩ "A" "B" "" 1).p "B" "A" "" 2).p.fns = []) ∧
    ((registerCb 1 0 (registerCb 1 0 ⟨[], []⟩ "B" "A" "" 2).p "A" "B" "" 1).err =
        some ("conflicting callback " ++ "A" ++ " with before " ++ "B") ∧
      (registerCb 1 0 (registerCb 1 0 ⟨[], []⟩ "B" "A" "" 2).p "A" "B" "" 1).p.fns = []) :=
  C4_mutual_before_always_conflicts 0 0 "A" "B" 1 2 (by decide) (by decide) (by decide)
    (by decide) (by decide)

/-- C5 (corrected).  On candidate sets of at most 20 steps whose only
constraints are wildcards — the range on which `sort.SliceStable` runs
a single insertion-sort pass; on longer inputs its block merge may
arrange the wildcard blocks differently, because the comparator is not
a strict weak order when both wildcard classes are present —
compilation succeeds and produces: the `before="*"` steps in
**reverse** registration order, then the unconstrained steps in
registration order, then the `after="*"` steps in registration order.
So the separation property holds on this fragment but the `before="*"`
block does not preserve relative registration order.  (Steps mixing a
named constraint with a wildcard can break separation entirely: see the
counterexample.) -/
theorem C5_wildcard_front_reversed_back_preserved (fuel : Nat) (cs0 : List Callback)
    (hsz : cs0.length ≤ 20)
    (hW : ∀ c ∈ cs0, clsN c ∨ clsB c ∨ clsA c)
    (hstar : ∀ c ∈ cs0, c.name ≠ "*")
    (hnr : ∀ c ∈ cs0, c.remove = false)
    (hnd : (cs0.map (·.name)).Nodup) :
    (sortCallbacksF (fuel + 1) cs0).err = none ∧
    (sortCallbacksF (fuel + 1) cs0).fns =
      ((cs0.filter wildBefore).reverse ++ cs0.filter isNcb ++
        cs0.filter wildAfter).map (·.handler) :=
  sortCallbacksF_wildcard_shape fuel cs0 hsz hW hstar hnr hnd

/-- C5 witness: one step of each wildcard class. -/
theorem C5_witness :
    (sortCallbacksF 2 [⟨"a1", "", "*", false, false, none, 1⟩,
        ⟨"b1", "*", "", false, false, none, 2⟩,
        ⟨"n1", "", "", false, false, none, 3⟩]).err = none ∧
    (sortCallbacksF 2 [⟨"a1", "", "*", false, false, none, 1⟩,
        ⟨"b1", "*", "", false, false, none, 2⟩,
        ⟨"n1", "", "", false, false, none, 3⟩]).fns =
      ((([⟨"a1", "", "*", false, false, none, 1⟩,
          ⟨"b1", "*", "", false, false, none, 2⟩,
          ⟨"n1", "", "", false, false, none, 3⟩] : List Callback).filter
            wildBefore).reverse ++
        ([⟨"a1", "", "*", false, false, none, 1⟩,
          ⟨"b1", "*", "", false, false, none, 2⟩,
          ⟨"n1", "", "", false, false, none, 3⟩] : List Callback).filter isNcb ++
        ([⟨"a1", "", "*", false, false, none, 1⟩,
          ⟨"b1", "*", "", false, false, none, 2⟩,
          ⟨"n1", "", "", false, false, none, 3⟩] : List Callback).filter
            wildAfter).map (·.handler) :=
  C5_wildcard_front_reversed_back_preserved 1 _ (by decide)
    (by
      intro c hc
      simp only [List.mem_cons, List.not_mem_nil, or_false] at hc
      rcases hc with rfl | rfl | rfl
      · right
        right
        exact ⟨rfl, rfl⟩
      · right
        left
        exact ⟨rfl, rfl⟩
      · left
        exact ⟨rfl, rfl⟩)
    (by decide) (by decide) (by decide)

/-- C5 counterexample to the claim as stated: two `before="*"` steps
come out in reverse registration order (`[2,1,3]`, not `[1,2,3]`), and
a step combining `before="B1"` with `after="*"` ends up **ahead** of
the `before="*"` step `B1` without any error — violating both
separation statements. -/
theorem C5_counterexample :
    (registerCb 4 0 (registerCb 4 0 (registerCb 4 0 ⟨[], []⟩ "B1" "*" "" 1).p
        "B2" "*" "" 2).p "C" "" "" 3).p.fns = [2, 1, 3] ∧
    ([2, 1, 3] : List Nat) ≠ [1, 2, 3] ∧
    (registerCb 4 0 (registerCb 4 0 ⟨[], []⟩ "c" "B1" "*" 1).p "B1" "*" "" 2).p.fns
      = [1, 2] ∧
    (registerCb 4 0 (registerCb 4 0 ⟨[], []⟩ "c" "B1" "*" 1).p "B1" "*" "" 2).err
      = none := by
  decide

/-- C6 (corrected).  A name whose every registration carries a
condition that is false at this compile is excluded from the
compilation **and dropped from the registry** (`p.callbacks` is
overwritten with the filtered list), so it cannot be re-evaluated or
re-included by any future recompilation. -/
theorem C6_condition_false_step_dropped_from_registry (fuel : Nat) (p : Processor)
    (db : Nat) (nm : String)
    (h : ∀ c ∈ p.callbacks, c.name = nm → ∃ m, c.match_ = some m ∧ m db = false) :
    nm ∉ ((compile fuel p db).p.callbacks).map (·.name) := by
  intro hmem
  have hperm := compile_registry_names fuel p db
  have hmem2 : nm ∈ (candsOf p db).map (·.name) := hperm.mem_iff.mp hmem
  rcases List.mem_map.mp hmem2 with ⟨c, hc, rfl⟩
  unfold candsOf removeCallbacks at hc
  have hc1 : c ∈ p.callbacks.filter (matchPass db) := List.mem_of_mem_filter hc
  have hc2 : c ∈ p.callbacks := List.mem_of_mem_filter hc1
  have hpass : matchPass db c = true := List.of_mem_filter hc1
  rcases h c hc2 rfl with ⟨m, hm, hmf⟩
  unfold matchPass at hpass
  rw [hm] at hpass
  dsimp only at hpass
  rw [hmf] at hpass
  cases hpass

/-- C6 witness: one step whose condition is false at compile time. -/
theorem C6_witness :
    "M" ∉ ((compile 4 ⟨[⟨"M", "", "", false, false,
        some (fun n => decide (0 < n)), 7⟩], []⟩ 0).p.callbacks).map (·.name) :=
  C6_condition_false_step_dropped_from_registry 4 _ 0 "M"
    (by
      intro c hc hname
      rcases List.mem_singleton.mp hc with rfl
      exact ⟨fun n => decide (0 < n), rfl, rfl⟩)

/-- C6 counterexample to the claim as stated: the condition-false step
is gone from the registry after the first compile, and a later
recompilation where the condition would now hold still yields an empty
compiled list. -/
theorem C6_counterexample :
    (compile 4 ⟨[⟨"M", "", "", false, false, some (fun n => decide (0 < n)), 7⟩],
      []⟩ 0).p.callbacks.length = 0 ∧
    (compile 4 (compile 4 ⟨[⟨"M", "", "", false, false,
      some (fun n => decide (0 < n)), 7⟩], []⟩ 0).p 1).p.fns = [] := by
  decide

/-- C7 (corrected).  Compiling leaves every surviving step's `name`,
`handler`, `remove`, `replace` and condition unchanged (pointwise along
the sorted candidate list), but — unlike the claim — the compiler does
rewrite `before`/`after` fields while resolving deferred references;
only the non-ordering fields are preserved. -/
theorem C7_compile_preserves_all_but_ordering_fields (fuel : Nat) (p : Processor)
    (db : Nat) :
    ((compile fuel p db).p.callbacks).map skel =
      (goStableSort goLess (candsOf p db)).map skel := by
  rw [compile_eq]
  exact sortCallbacksF_cs_skel fuel (candsOf p db)

/-- C7 counterexample to the claim as stated: registering `Y` with
`before = "X"` and then `X` leaves the registry with `X.after`
rewritten to `"Y"` by the compiler — the registered `after` fields were
both empty. -/
theorem C7_counterexample :
    (registerCb 4 0 (registerCb 4 0 ⟨[], []⟩ "Y" "X" "" 1).p "X" "" "" 2).p.callbacks.map
      (·.after) = ["", "Y"] ∧
    (["", "Y"] : List String) ≠ ["", ""] := by
  decide

/-- C8 (confirmed).  When a compile returns an error, nothing is
cached: the stored function list is set to the empty list (never a
partially-sorted list), while the registry still holds the full
candidate set — the mutation that triggered the failing compile is not
rolled back. -/
theorem C8_conflict_caches_nothing_keeps_registry (fuel : Nat) (p : Processor) (db : Nat)
    (h : (compile fuel p db).err ≠ none) :
    (compile fuel p db).p.fns = [] ∧
    (((compile fuel p db).p.callbacks).map (·.name)).Perm
      ((candsOf p db).map (·.name)) := by
  constructor
  · rw [compile_eq] at h ⊢
    exact sortCallbacksF_err_fns fuel _ h
  · exact compile_registry_names fuel p db

/-- C8 witness: a mutually-conflicting registry. -/
theorem C8_witness :
    (compile 4 ⟨[⟨"A", "B", "", false, false, none, 1⟩,
        ⟨"B", "A", "", false, false, none, 2⟩], []⟩ 0).p.fns = [] ∧
    (((compile 4 ⟨[⟨"A", "B", "", false, false, none, 1⟩,
        ⟨"B", "A", "", false, false, none, 2⟩], []⟩ 0).p.callbacks).map (·.name)).Perm
      ((candsOf ⟨[⟨"A", "B", "", false, false, none, 1⟩,
        ⟨"B", "A", "", false, false, none, 2⟩], []⟩ 0).map (·.name)) :=
  C8_conflict_caches_nothing_keeps_registry 4 _ 0 (by decide)

/-- C9 (confirmed).  When the dry-run flag is false, the harness clears
the statement's SQL text and empties its parameter list before
returning; when the flag is true, the SQL text and parameters produced
by the pipeline are left intact on the context. -/
theorem C9_dry_run_keeps_buffers_otherwise_cleared (pClauses : List String)
    (prep : Stmt → Stmt) (fns : List (Stmt → Stmt)) (st0 : Stmt) :
    ((Execute pClauses prep fns false st0).sql = "" ∧
      (Execute pClauses prep fns false st0).vars = []) ∧
    ((Execute pClauses prep fns true st0).sql =
        (fns.foldl (fun s f => f s) (prep (if st0.buildClauses.isEmpty then
          { st0 with buildClauses := pClauses } else st0))).sql ∧
      (Execute pClauses prep fns true st0).vars =
        (fns.foldl (fun s f => f s) (prep (if st0.buildClauses.isEmpty then
          { st0 with buildClauses := pClauses } else st0))).vars) := by
  unfold Execute
  by_cases h : st0.buildClauses.isEmpty <;> simp [h]

/-- C10 (confirmed).  Registering any sequence of steps with distinct
names, no constraints and no conditions through the plain `Register`
API always compiles without error, and the compiled function list is
exactly the handlers in registration order. -/
theorem C10_plain_distinct_registrations_compile_in_order (fuel db : Nat)
    (regs : List (String × Nat)) (hnd : (regs.map Prod.fst).Nodup) :
    (registerAll (fuel + 1) db ⟨⟨[], []⟩, [], none⟩ regs).err = none ∧
    (registerAll (fuel + 1) db ⟨⟨[], []⟩, [], none⟩ regs).p.fns = regs.map Prod.snd := by
  rcases regs with _ | ⟨nh, rest⟩
  · exact ⟨rfl, rfl⟩
  · have h : registerAll (fuel + 1) db ⟨⟨[], []⟩, [], none⟩ (nh :: rest) =
        ⟨⟨(nh :: rest).map plainStep, (nh :: rest).map Prod.snd⟩, [], none⟩ :=
      registerAll_plain fuel db rest nh [] [] none (by simpa using hnd)
    rw [h]
    exact ⟨rfl, rfl⟩

/-- C10 witness at a concrete two-step registration sequence. -/
theorem C10_witness :
    (registerAll 1 0 ⟨⟨[], []⟩, [], none⟩ [("a", 1), ("b", 2)]).err = none ∧
    (registerAll 1 0 ⟨⟨[], []⟩, [], none⟩ [("a", 1), ("b", 2)]).p.fns =
      ([("a", 1), ("b", 2)] : List (String × Nat)).map Prod.snd :=
  C10_plain_distinct_registrations_compile_in_order 0 0 [("a", 1), ("b", 2)] (by decide)

end Gorm
